import Mathlib

/-!
Verification of the session discovery and transcript watching engine of the
pixel-agents-browser repository.  The TypeScript source is shallowly embedded:
file contents are lists of characters, JS Maps are association lists, JS Sets
are duplicate-free lists, timers are booleans or id lists, and every fs call is
routed through an explicit filesystem value.  Functions keep their source
names; the two duplicated variants of the core (the extension variant in
src/extension.ts and the server variant in fileWatcher/agentManager) are kept
in the namespaces Ext and Srv respectively.
-/

/-- JS truthiness of l.trim(): true iff the line has a non-whitespace char. -/
def nonBlank (l : List Char) : Bool :=
  l.any (fun ch => !ch.isWhitespace)

/-- JS text.split(chr(10)): split a character list at every newline.  The
result is never empty; fragments do not contain the separator; a trailing
newline yields a trailing empty fragment. -/
def splitNl : List Char → List (List Char)
  | [] => [[]]
  | c :: cs =>
    match splitNl cs with
    | [] => [[]]
    | l :: ls => if c = '\n' then [] :: l :: ls else (c :: l) :: ls

/-- JS Map lookup on an association-list model. -/
def mapLookup {α β : Type} [DecidableEq α] (l : List (α × β)) (k : α) :
    Option β :=
  (l.find? (fun p => p.1 = k)).map (fun p => p.2)

/-- JS Map.set: replace in place if the key exists (keys are unique, so the
first hit is the only one), append otherwise; insertion order is preserved,
as for a JS Map. -/
def mapSet {α β : Type} [DecidableEq α] : List (α × β) → α → β → List (α × β)
  | [], k, v => [(k, v)]
  | p :: rest, k, v =>
    if p.1 = k then (k, v) :: rest else p :: mapSet rest k v

/-- JS Map.delete / Set.delete on a unique-key association list. -/
def mapErase {α β : Type} [DecidableEq α] (l : List (α × β)) (k : α) :
    List (α × β) :=
  l.filter (fun p => p.1 ≠ k)

/-- JS Set.add: append iff not already present. -/
def setAdd {α : Type} [DecidableEq α] (l : List α) (x : α) : List α :=
  if l.contains x then l else l ++ [x]

/-- A JSON value, the result of JSON.parse on one transcript line.
Transcript records carry unique keys, so objects are association lists read
with first-match lookup. -/
inductive JVal where
  | str (s : String)
  | num (n : Int)
  | bool (b : Bool)
  | null
  | arr (items : List JVal)
  | obj (fields : List (String × JVal))

/-- Object field access (undefined becomes none). -/
def jGet (fields : List (String × JVal)) (k : String) : Option JVal :=
  (fields.find? (fun p => p.1 = k)).map (fun p => p.2)

/-- JS record.type === t: the record is an object whose type field is the
string t. -/
def isType (r : JVal) (t : String) : Bool :=
  match r with
  | .obj fs =>
    match jGet fs "type" with
    | some (.str s) => s == t
    | _ => false
  | _ => false

/-- The type field of a content block, when it is an object with a string
type. -/
def blockType (b : JVal) : Option String :=
  match b with
  | .obj fs =>
    match jGet fs "type" with
    | some (.str s) => some s
    | _ => none
  | _ => none

/-- A string field of a content block. -/
def blockStr (b : JVal) (k : String) : Option String :=
  match b with
  | .obj fs =>
    match jGet fs k with
    | some (.str s) => some s
    | _ => none
  | _ => none

/-- A string field of a block when JS finds it truthy: present, a string
and non-empty. -/
def strTruthy (b : JVal) (k : String) : Option String :=
  match blockStr b k with
  | some s => if s = "" then none else some s
  | none => none

/-- JS block.input when it is an object, else the empty object
(block.input falsy gives the literal empty object in the source; a
non-object value yields no usable fields either way). -/
def blockInput (b : JVal) : List (String × JVal) :=
  match b with
  | .obj fs =>
    match jGet fs "input" with
    | some (.obj ifs) => ifs
    | _ => []
  | _ => []

/-- JS Array.isArray(record.message?.content): the content array of a turn
record, when present. -/
def msgContent (r : JVal) : Option (List JVal) :=
  match r with
  | .obj fs =>
    match jGet fs "message" with
    | some (.obj mfs) =>
      match jGet mfs "content" with
      | some (.arr items) => some items
      | _ => none
    | _ => none
  | _ => none

/-- A user turn whose content holds no tool_result block: a plain human
prompt. -/
def plainUserPrompt (r : JVal) : Bool :=
  isType r "user" &&
    (match msgContent r with
     | some blocks => !(blocks.any (fun b => blockType b == some "tool_result"))
     | none => false)

/-- Whether a user record carries at least one tool_result block. -/
def hasToolResult (r : JVal) : Bool :=
  match msgContent r with
  | some blocks => blocks.any (fun b => blockType b == some "tool_result")
  | none => false

/-- The truthy tool_use_id fields of the tool_result blocks in a content
array, in order: the ids a finish pass acts on. -/
def resultIdsOf : List JVal → List String
  | [] => []
  | b :: bs =>
    if blockType b = some "tool_result" then
      match strTruthy b "tool_use_id" with
      | some tid => tid :: resultIdsOf bs
      | none => resultIdsOf bs
    else resultIdsOf bs

/-- The truthy id fields of the tool_use blocks in a content array, in
order: the ids a start pass acts on. -/
def useIdsOf : List JVal → List String
  | [] => []
  | b :: bs =>
    if blockType b = some "tool_use" then
      match strTruthy b "id" with
      | some bid => bid :: useIdsOf bs
      | none => useIdsOf bs
    else useIdsOf bs

/-- The tool_use_id fields the parser acts on for a whole record. -/
def toolResultIds (r : JVal) : List String :=
  match msgContent r with
  | some blocks => resultIdsOf blocks
  | none => []

/-- The tool_use ids the parser acts on for a whole record. -/
def toolUseIds (r : JVal) : List String :=
  match msgContent r with
  | some blocks => useIdsOf blocks
  | none => []

/-- Split a character list at every occurrence of a separator, JS
String.prototype.split style (never empty, separators dropped). -/
def splitChar (sep : Char) : List Char → List (List Char)
  | [] => [[]]
  | c :: cs =>
    match splitChar sep cs with
    | [] => [[]]
    | l :: ls => if c = sep then [] :: l :: ls else (c :: l) :: ls

/-- Node path.basename for slash-separated paths: the last non-empty
segment, or the empty string. -/
def basename (p : String) : String :=
  ⟨((splitChar '/' p.data).filter (fun s => s ≠ [])).getLastD []⟩

/-- formatToolStatus from src/extension.ts (lines 384 to 401): the
tool-specific human status line.  base yields the basename of a string path
and the empty string otherwise; a Bash command longer than 30 characters is
truncated with a horizontal ellipsis. -/
def formatToolStatus (toolName : String) (input : List (String × JVal)) :
    String :=
  let base := fun (k : String) =>
    match jGet input k with
    | some (.str s) => basename s
    | _ => ""
  if toolName = "Read" then "Reading " ++ base "file_path"
  else if toolName = "Edit" then "Editing " ++ base "file_path"
  else if toolName = "Write" then "Writing " ++ base "file_path"
  else if toolName = "Bash" then
    let cmd :=
      match jGet input "command" with
      | some (.str s) => s
      | _ => ""
    "Running: " ++ (if 30 < cmd.length then cmd.take 30 ++ "…" else cmd)
  else if toolName = "Glob" then "Searching files"
  else if toolName = "Grep" then "Searching code"
  else if toolName = "WebFetch" then "Fetching web content"
  else if toolName = "WebSearch" then "Searching the web"
  else if toolName = "Task" then "Running subtask"
  else "Using " ++ toolName

namespace Ext

/-- The tail cursor of one agent in src/extension.ts: the consumed byte
offset (fileOffsets) and the pending partial line (lineBuffers). -/
structure TailState where
  fileOffset : Nat
  lineBuffer : List Char
  deriving Repr, DecidableEq

/-- readNewLines from src/extension.ts (lines 299 to 324): stat the file; if
size is at most the recorded offset do nothing; otherwise read the bytes from
offset to size, advance the offset to size, prepend the buffered partial line,
split on newlines, keep the final fragment as the new buffer and hand every
other non-blank line to processTranscriptLine.  The handed-over lines are
returned. -/
def readNewLines (st : TailState) (file : List Char) :
    TailState × List (List Char) :=
  if file.length ≤ st.fileOffset then (st, [])
  else
    let chunk := file.drop st.fileOffset
    let text := st.lineBuffer ++ chunk
    let lines := splitNl text
    (⟨file.length, lines.getLastD []⟩,
      lines.dropLast.filter nonBlank)

/-- A whole sequence of incremental reads: each element of chunks is the
byte run appended to the log between one read and the next (possibly empty,
for a change notification or poll tick with no new data).  Returns the final
cursor and every line handed to the parser, in order. -/
def readSeq (st : TailState) (file : List Char) :
    List (List Char) → TailState × List (List Char)
  | [] => (st, [])
  | ch :: rest =>
    let r1 := readNewLines st (file ++ ch)
    let r2 := readSeq r1.1 (file ++ ch) rest
    (r2.1, r1.2 ++ r2.2)

/-- The cursor an agent holds after having fully consumed a file: offset at
end of file, buffer holding the final unterminated fragment. -/
def canonState (file : List Char) : TailState :=
  ⟨file.length, (splitNl file).getLastD []⟩

/-- Messages the extension posts to its webview while parsing transcript
lines.  toolDone is posted after a 300ms presentation delay in the source;
the delay itself is not modelled. -/
inductive Msg where
  | toolStart (toolId status : String)
  | toolDone (toolId : String)
  | toolsClear
  deriving Repr, DecidableEq

/-- The for-loop over assistant content blocks in processTranscriptLine
(src/extension.ts lines 334 to 348): every tool_use block with a truthy id
is added to the active set and announced with its formatted status. -/
def startBlocks (active : List String) (msgs : List Msg) :
    List JVal → List String × List Msg
  | [] => (active, msgs)
  | b :: bs =>
    if blockType b = some "tool_use" then
      match strTruthy b "id" with
      | some bid =>
        startBlocks (setAdd active bid)
          (msgs ++ [Msg.toolStart bid
            (formatToolStatus ((blockStr b "name").getD "") (blockInput b))]) bs
      | none => startBlocks active msgs bs
    else startBlocks active msgs bs

/-- The for-loop over user tool_result blocks in processTranscriptLine
(src/extension.ts lines 355 to 369): every tool_result block with a truthy
tool_use_id is deleted from the active set (a no-op when absent) and a
delayed done message is posted. -/
def finishBlocks (active : List String) (msgs : List Msg) :
    List JVal → List String × List Msg
  | [] => (active, msgs)
  | b :: bs =>
    if blockType b = some "tool_result" then
      match strTruthy b "tool_use_id" with
      | some tid =>
        finishBlocks (active.filter (fun x => x ≠ tid))
          (msgs ++ [Msg.toolDone tid]) bs
      | none => finishBlocks active msgs bs
    else finishBlocks active msgs bs

/-- processTranscriptLine from src/extension.ts (lines 326 to 382), after
JSON.parse: assistant turns start tools, user turns with tool_result blocks
finish them, any other user turn is a fresh prompt that clears the whole
active set, and any other record (or a JSON.parse failure, which never
reaches this point) produces nothing.  active is the agent's activeToolIds
set (a missing map entry is the empty set). -/
def processRecord (active : List String) (r : JVal) :
    List String × List Msg :=
  if isType r "assistant" then
    match msgContent r with
    | some blocks => startBlocks active [] blocks
    | none => (active, [])
  else if isType r "user" then
    match msgContent r with
    | some blocks =>
      if blocks.any (fun b => blockType b == some "tool_result") then
        finishBlocks active [] blocks
      else ([], [Msg.toolsClear])
    | none => (active, [])
  else (active, [])

/-- A whole sequence of parsed records folded over the active set. -/
def processRecords (active : List String) (rs : List JVal) : List String :=
  rs.foldl (fun a r => (processRecord a r).1) active

end Ext

namespace Srv

/-- Messages posted to the webview bridge by the server core (wsServer
postMessage payloads), restricted to those emitted by the functions embedded
here.  toolDone is posted after a fixed 300ms presentation delay in the
source; the delay itself is not modelled. -/
inductive Msg where
  | agentCreated (id : Nat)
  | agentClosed (id : Nat)
  | toolStart (id : Nat) (toolId status : String)
  | toolDone (id : Nat) (toolId : String)
  | toolsClear (id : Nat)
  | permissionClear (id : Nat)
  | statusWaiting (id : Nat)
  | procKilled (id : Nat)
  deriving Repr, DecidableEq

/-- AgentState from server/src/types.ts.  processRef is kept only as a
liveness bit; maps and sets become association lists and duplicate-free
lists. -/
structure AgentState where
  id : Nat
  processAlive : Bool
  sessionId : String
  projectDir : String
  jsonlFile : String
  fileOffset : Nat
  lineBuffer : List Char
  activeToolIds : List String
  activeToolStatuses : List (String × String)
  activeToolNames : List (String × String)
  activeSubagentToolIds : List (String × List String)
  activeSubagentToolNames : List (String × List (String × String))
  isWaiting : Bool
  permissionSent : Bool
  hadToolsInTurn : Bool
  deriving Repr, DecidableEq

/-- The state touched by one tailer invocation for one agent: the agent
record plus whether a waiting-fallback timer and a permission timer are
currently armed for its id (the entries of waitingTimers / permissionTimers
for that id). -/
structure TailerCtx where
  agent : AgentState
  waitingTimer : Bool
  permissionTimer : Bool
  deriving Repr, DecidableEq

/-- The for-loop at the end of fileWatcher readNewLines: run the line
processor over each line in order, threading state and concatenating the
posted messages. -/
def processLines (process : Nat → TailerCtx → List Char → TailerCtx × List Msg)
    (agentId : Nat) (ls : List (List Char)) (acc : TailerCtx × List Msg) :
    TailerCtx × List Msg :=
  ls.foldl (fun acc l =>
    let r := process agentId acc.1 l
    (r.1, acc.2 ++ r.2)) acc

/-- readNewLines from server fileWatcher (src/unnamed/part_002 lines 70 to
111).  The transcript line processor is a parameter because the server
transcriptParser.ts module is not part of the provided sources; everything
else mirrors the source: the size guard, the offset update, the partial-line
buffer, the timer cancellation and permission-clear block guarded by
hasLines, and the per-line loop skipping blank lines. -/
def readNewLines (process : Nat → TailerCtx → List Char → TailerCtx × List Msg)
    (agentId : Nat) (c : TailerCtx) (file : List Char) :
    TailerCtx × List Msg :=
  if file.length ≤ c.agent.fileOffset then (c, [])
  else
    let chunk := file.drop c.agent.fileOffset
    let c1 : TailerCtx := { c with agent := { c.agent with fileOffset := file.length } }
    let text := c1.agent.lineBuffer ++ chunk
    let lines := splitNl text
    let c2 : TailerCtx :=
      { c1 with agent := { c1.agent with lineBuffer := lines.getLastD [] } }
    let body := lines.dropLast
    let r3 : TailerCtx × List Msg :=
      if body.any nonBlank then
        let ca : TailerCtx := { c2 with waitingTimer := false, permissionTimer := false }
        if ca.agent.permissionSent then
          ({ ca with agent := { ca.agent with permissionSent := false } },
            [Msg.permissionClear agentId])
        else (ca, [])
      else (c2, [])
    processLines process agentId (body.filter nonBlank) r3

/-- Abbreviation for the agent record right after the offset and buffer
updates of a growing read, used to state unfoldings of readNewLines. -/
def afterRead (c : TailerCtx) (file : List Char) : AgentState :=
  { c.agent with
    fileOffset := file.length
    lineBuffer :=
      (splitNl (c.agent.lineBuffer ++ file.drop c.agent.fileOffset)).getLastD [] }

/-- Modelled from the spec: the ToolStarted handling of the server
transcript parser, whose module (transcriptParser.ts) is absent from the
provided sources.  Per spec 4.2/4.3, each tool_use block with a truthy id is
added to the in-flight set with its status text and tool name recorded,
hadToolsInTurn is noted, the waiting-fallback timer is cancelled, a
previously set permission flag is cleared (with its notification), and the
tool start is announced. -/
def startToolBlocks (agentId : Nat) (c : TailerCtx) (msgs : List Msg) :
    List JVal → TailerCtx × List Msg
  | [] => (c, msgs)
  | b :: bs =>
    if blockType b = some "tool_use" then
      match strTruthy b "id" with
      | some bid =>
        let name := (blockStr b "name").getD ""
        let status := formatToolStatus name (blockInput b)
        let hadPerm := c.agent.permissionSent
        let c1 : TailerCtx :=
          { agent := { c.agent with
              activeToolIds := setAdd c.agent.activeToolIds bid
              activeToolStatuses := mapSet c.agent.activeToolStatuses bid status
              activeToolNames := mapSet c.agent.activeToolNames bid name
              hadToolsInTurn := true
              permissionSent := false }
            waitingTimer := false
            permissionTimer := c.permissionTimer }
        startToolBlocks agentId c1
          (msgs ++ (if hadPerm then [Msg.permissionClear agentId] else []) ++
            [Msg.toolStart agentId bid status]) bs
      | none => startToolBlocks agentId c msgs bs
    else startToolBlocks agentId c msgs bs

/-- Modelled from the spec: the ToolFinished handling of the server
transcript parser (transcriptParser.ts, absent from the provided sources).
Per spec 4.2/4.3, each tool_result block with a truthy tool_use_id removes
that id from the in-flight set and its recorded status and name, and posts
the (delayed) done notification; an id never seen is removed idempotently. -/
def finishToolBlocks (agentId : Nat) (c : TailerCtx) (msgs : List Msg) :
    List JVal → TailerCtx × List Msg
  | [] => (c, msgs)
  | b :: bs =>
    if blockType b = some "tool_result" then
      match strTruthy b "tool_use_id" with
      | some tid =>
        let c1 : TailerCtx :=
          { c with agent := { c.agent with
              activeToolIds := c.agent.activeToolIds.filter (fun x => x ≠ tid)
              activeToolStatuses := mapErase c.agent.activeToolStatuses tid
              activeToolNames := mapErase c.agent.activeToolNames tid } }
        finishToolBlocks agentId c1 (msgs ++ [Msg.toolDone agentId tid]) bs
      | none => finishToolBlocks agentId c msgs bs
    else finishToolBlocks agentId c msgs bs

/-- Modelled from the spec: processTranscriptLine of the server transcript
parser (transcriptParser.ts, absent from the provided sources; only its
callers in fileWatcher and its state in types.ts are provided), acting on one
parsed record.  Per spec 4.2 and 4.3: an assistant turn with tool_use blocks
starts tools; a user turn with tool_result blocks finishes them; any other
user turn is a plain prompt (TurnRestarted) that clears every in-flight id,
status and name and the waiting/permission flags and posts an
activity-cleared notification; a system record signals turn completion
(TurnEnded), marking the agent waiting when nothing is in flight and
deferring otherwise; anything else produces no events.  The spec fixes no
discriminator for the completion record beyond its system type. -/
def processTranscriptLine (agentId : Nat) (c : TailerCtx) (r : JVal) :
    TailerCtx × List Msg :=
  if isType r "assistant" then
    match msgContent r with
    | some blocks => startToolBlocks agentId c [] blocks
    | none => (c, [])
  else if isType r "user" then
    match msgContent r with
    | some blocks =>
      if blocks.any (fun b => blockType b == some "tool_result") then
        finishToolBlocks agentId c [] blocks
      else
        ({ c with agent := { c.agent with
            activeToolIds := []
            activeToolStatuses := []
            activeToolNames := []
            isWaiting := false
            permissionSent := false } },
          [Msg.toolsClear agentId])
    | none => (c, [])
  else if isType r "system" then
    if c.agent.activeToolIds.isEmpty then
      ({ c with agent := { c.agent with isWaiting := true } },
        [Msg.statusWaiting agentId])
    else (c, [])
  else (c, [])

end Srv

namespace Srv

/-- The durable subset of a session, server types.ts PersistedAgent. -/
structure PersistedAgent where
  id : Nat
  sessionId : String
  jsonlFile : String
  projectDir : String
  deriving Repr, DecidableEq

/-- One file of the observed filesystem: its mtimeMs and its contents (the
size a stat reports is the content length). -/
structure FileInfo where
  mtime : Nat
  content : List Char
  deriving Repr, DecidableEq

/-- The filesystem visible to the server, an association from absolute path
to file info; a missing entry is a stat/open failure (caught and skipped by
every caller). -/
def FileSys : Type := List (String × FileInfo)

/-- fs.statSync / fs.existsSync combined: the info of a path, when the file
exists and is readable. -/
def statFile (fsys : FileSys) (p : String) : Option FileInfo :=
  mapLookup fsys p

/-- The mutable state of one server session (the fields of PixelAgentsSession
in wsServer.ts): the agent map, the known-file set, per-agent watchers (with
the watched path) and timers, the id counter, the focused agent, the scan
timer, the persisted snapshot file, and the messages posted so far. -/
structure World where
  now : Nat
  agents : List (Nat × AgentState)
  knownJsonlFiles : List String
  fileWatchers : List (Nat × String)
  pollingTimers : List Nat
  waitingTimers : List Nat
  permissionTimers : List Nat
  jsonlPollTimers : List Nat
  nextAgentId : Nat
  activeAgentId : Option Nat
  projectScanTimer : Bool
  store : List PersistedAgent
  msgs : List Msg
  deriving Repr, DecidableEq

/-- persistAgents from agentManager.ts (lines 161 to 174): write the durable
fields of every agent, in map order, to the agents file. -/
def persistAgents (w : World) : World :=
  { w with store := w.agents.map (fun pr =>
      ⟨pr.2.id, pr.2.sessionId, pr.2.jsonlFile, pr.2.projectDir⟩) }

/-- startFileWatching from fileWatcher part_002 (lines 42 to 68): attach an
fs.watch on the file and the 2s backup poll for the agent. -/
def startFileWatching (agentId : Nat) (filePath : String) (w : World) :
    World :=
  { w with
      fileWatchers := mapSet w.fileWatchers agentId filePath
      pollingTimers := setAdd w.pollingTimers agentId }

/-- Modelled from the spec: cancelWaitingTimer of timerManager.ts, a module
absent from the provided sources; the Timer Registry cancels the
waiting-fallback timer of the id on demand. -/
def cancelWaitingTimer (agentId : Nat) (w : World) : World :=
  { w with waitingTimers := w.waitingTimers.filter (fun i => i ≠ agentId) }

/-- Modelled from the spec: cancelPermissionTimer of timerManager.ts (absent
from the provided sources); cancels the permission-threshold timer of the
id. -/
def cancelPermissionTimer (agentId : Nat) (w : World) : World :=
  { w with permissionTimers := w.permissionTimers.filter (fun i => i ≠ agentId) }

/-- Modelled from the spec: clearAgentActivity of timerManager.ts (absent
from the provided sources): clear the agent in-flight ids, statuses, names
and sub-session activity and the waiting/permission flags, cancel its
permission timer, and post the activity-cleared notification. -/
def clearAgentActivity (a : AgentState) (agentId : Nat) (w : World) :
    AgentState × World :=
  ({ a with
      activeToolIds := []
      activeToolStatuses := []
      activeToolNames := []
      activeSubagentToolIds := []
      activeSubagentToolNames := []
      isWaiting := false
      permissionSent := false },
    { w with
        permissionTimers := w.permissionTimers.filter (fun i => i ≠ agentId)
        msgs := w.msgs ++ [Msg.toolsClear agentId] })

/-- readNewLines lifted to the whole session state: look the agent up, stat
its file, run the per-agent tailer on the contents and write back the agent,
the timer cancellations and the posted messages.  A missing agent or a stat
failure changes nothing (the error is only logged and retried later). -/
def readNewLinesW
    (process : Nat → TailerCtx → List Char → TailerCtx × List Msg)
    (agentId : Nat) (fsys : FileSys) (w : World) : World :=
  match mapLookup w.agents agentId with
  | none => w
  | some a =>
    match statFile fsys a.jsonlFile with
    | none => w
    | some info =>
      let c0 : TailerCtx :=
        ⟨a, w.waitingTimers.contains agentId,
          w.permissionTimers.contains agentId⟩
      let r := readNewLines process agentId c0 info.content
      { w with
          agents := mapSet w.agents agentId r.1.agent
          waitingTimers :=
            if r.1.waitingTimer then w.waitingTimers
            else w.waitingTimers.filter (fun i => i ≠ agentId)
          permissionTimers :=
            if r.1.permissionTimer then w.permissionTimers
            else w.permissionTimers.filter (fun i => i ≠ agentId)
          msgs := w.msgs ++ r.2 }

/-- reassignAgentToFile from fileWatcher part_002 (lines 235 to 270): on an
unknown id do nothing; otherwise close the old watch and backup poll, cancel
the waiting and permission timers, clear the agent activity, swap the agent
to the new file at offset 0 with an empty buffer, persist, attach a watch on
the new file, and read whatever it already holds. -/
def reassignAgentToFile
    (process : Nat → TailerCtx → List Char → TailerCtx × List Msg)
    (agentId : Nat) (newFilePath : String) (fsys : FileSys) (w : World) :
    World :=
  match mapLookup w.agents agentId with
  | none => w
  | some agent =>
    let w1 := { w with
        fileWatchers := w.fileWatchers.filter (fun pr => pr.1 ≠ agentId)
        pollingTimers := w.pollingTimers.filter (fun i => i ≠ agentId) }
    let w2 := cancelWaitingTimer agentId w1
    let w3 := cancelPermissionTimer agentId w2
    let ar := clearAgentActivity agent agentId w3
    let agent2 := { ar.1 with
        jsonlFile := newFilePath
        fileOffset := 0
        lineBuffer := ([] : List Char) }
    let w4 := { ar.2 with agents := mapSet ar.2.agents agentId agent2 }
    let w5 := persistAgents w4
    let w6 := startFileWatching agentId newFilePath w5
    readNewLinesW process agentId fsys w6

/-- The five-minute activity window of the project scanner. -/
def ACTIVE_THRESHOLD_MS : Nat := 5 * 60 * 1000

/-- Node path.basename(p, ext): the basename with ext stripped when it is a
proper suffix. -/
def basenameNoExt (p ext : String) : String :=
  let b := (basename p).data
  let e := ext.data
  if e.length ≤ b.length ∧ b ≠ e ∧ b.drop (b.length - e.length) = e then
    ⟨b.take (b.length - e.length)⟩
  else ⟨b⟩

/-- One file of the scan loop in scanForNewJsonlFiles (part_002 lines 190 to
232): a known file is skipped; an unknown one is marked known, dropped if its
mtime is outside the five-minute window, and otherwise a brand-new agent is
created for it (session id from the filename, no live process), announced,
attached from the file current end, and the set is persisted.  The two stats
of the source see the same filesystem here, so the created agent carries the
statted size directly. -/
def scanStep (projectDir : String) (fsys : FileSys) (w : World)
    (file : String) : World :=
  if w.knownJsonlFiles.contains file then w
  else
    let w1 := { w with knownJsonlFiles := w.knownJsonlFiles ++ [file] }
    match statFile fsys file with
    | none => w1
    | some info =>
      if ACTIVE_THRESHOLD_MS < w1.now - info.mtime then w1
      else
        let id := w1.nextAgentId
        let agent : AgentState :=
          ⟨id, false, basenameNoExt file ".jsonl", projectDir, file,
            info.content.length, [], [], [], [], [], [], false, false, false⟩
        let w2 := { w1 with
            nextAgentId := id + 1
            agents := mapSet w1.agents id agent
            msgs := w1.msgs ++ [Msg.agentCreated id] }
        persistAgents (startFileWatching id file w2)

/-- scanForNewJsonlFiles (part_002 lines 158 to 233) over the listing the
source computes (the project directory jsonl files and every
subagents-directory jsonl file). -/
def scanForNewJsonlFiles (projectDir : String) (files : List String)
    (fsys : FileSys) (w : World) : World :=
  files.foldl (scanStep projectDir fsys) w

/-- removeAgent from agentManager.ts (lines 124 to 159): an unknown id
returns with nothing touched; otherwise the process is killed, the jsonl
poll timer, watcher and backup poll are cleared, the waiting and permission
timers cancelled, the agent dropped from the map and the set persisted. -/
def removeAgent (agentId : Nat) (w : World) : World :=
  match mapLookup w.agents agentId with
  | none => w
  | some agent =>
    let w0 :=
      if agent.processAlive then
        { w with msgs := w.msgs ++ [Msg.procKilled agentId] }
      else w
    let w1 := { w0 with
        jsonlPollTimers := w0.jsonlPollTimers.filter (fun i => i ≠ agentId) }
    let w2 := { w1 with
        fileWatchers := w1.fileWatchers.filter (fun pr => pr.1 ≠ agentId)
        pollingTimers := w1.pollingTimers.filter (fun i => i ≠ agentId) }
    let w3 := cancelWaitingTimer agentId w2
    let w4 := cancelPermissionTimer agentId w3
    let w5 := { w4 with agents := w4.agents.filter (fun pr => pr.1 ≠ agentId) }
    persistAgents w5

/-- The one-hour restore staleness window of agentManager.ts restoreAgents. -/
def ONE_HOUR_MS : Nat := 60 * 60 * 1000

/-- One iteration of the restore loop (agentManager.ts lines 206 to 247):
entries whose file is missing or older than one hour are skipped silently;
a surviving entry is rebuilt as a monitoring-only agent with empty activity,
registered, its file marked known, the highest id and last project directory
tracked, and its tailer attached at the file current end (both stats see the
same filesystem here, so the agent carries the statted size directly). -/
def restoreStep (fsys : FileSys) (acc : World × Nat × Option String)
    (p : PersistedAgent) : World × Nat × Option String :=
  let w := acc.1
  match statFile fsys p.jsonlFile with
  | none => acc
  | some info =>
    if ONE_HOUR_MS < w.now - info.mtime then acc
    else
      let agent : AgentState :=
        ⟨p.id, false, p.sessionId, p.projectDir, p.jsonlFile,
          info.content.length, [], [], [], [], [], [], false, false, false⟩
      let w1 := { w with
          agents := mapSet w.agents p.id agent
          knownJsonlFiles := setAdd w.knownJsonlFiles p.jsonlFile }
      let w2 := startFileWatching p.id p.jsonlFile w1
      (w2, if acc.2.1 < p.id then p.id else acc.2.1, some p.projectDir)

/-- ensureProjectScan (part_002 lines 113 to 156): once per session, seed the
known-file set with every jsonl file currently under the project directory
(subagents directories included; listing is the combined listing the source
computes) and install the periodic scan timer. -/
def ensureProjectScan (listing : List String) (w : World) : World :=
  if w.projectScanTimer then w
  else
    { w with
        knownJsonlFiles := listing.foldl setAdd w.knownJsonlFiles
        projectScanTimer := true }

/-- restoreAgents from agentManager.ts (lines 176 to 265): an empty or
unreadable snapshot returns immediately; otherwise every persisted entry
passing the exists-and-fresh check is restored, the id counter advances past
the highest restored id, the pruned set is re-persisted and the project scan
starts for the last restored project directory. -/
def restoreAgents (fsys : FileSys) (dirListing : String → List String)
    (w : World) : World :=
  if w.store.length = 0 then w
  else
    let acc := w.store.foldl (restoreStep fsys) (w, 0, none)
    let w1 := acc.1
    let w2 := { w1 with
        nextAgentId :=
          if w1.nextAgentId ≤ acc.2.1 then acc.2.1 + 1 else w1.nextAgentId }
    let w3 := persistAgents w2
    match acc.2.2 with
    | some dir => ensureProjectScan (dirListing dir) w3
    | none => w3

/-- A server session state as it is right after startup, before restore:
empty maps and timers, id counter at 1, holding a given snapshot file. -/
def freshWorld (now : Nat) (store : List PersistedAgent) : World :=
  ⟨now, [], [], [], [], [], [], [], 1, none, false, store, []⟩

/-- The Session an entry restores to, written from the spec for the
round-trip comparison: same identity and location, no live process, empty
activity, cleared flags, offset at the file current end. -/
def restoredAgent (p : PersistedAgent) (size : Nat) : AgentState :=
  ⟨p.id, false, p.sessionId, p.projectDir, p.jsonlFile, size,
    [], [], [], [], [], [], false, false, false⟩

/-- The restore survival check, written from the spec: the backing file
still exists and its mtime is within the staleness window. -/
def keepEntry (fsys : FileSys) (now : Nat) (p : PersistedAgent) : Bool :=
  match statFile fsys p.jsonlFile with
  | none => false
  | some info => !(ONE_HOUR_MS < now - info.mtime)

/-- The current size of a file (0 when absent). -/
def fileSize (fsys : FileSys) (p : String) : Nat :=
  match statFile fsys p with
  | none => 0
  | some info => info.content.length

end Srv

/-! ### Lemmas about splitNl -/

theorem splitNl_ne_nil (l : List Char) : splitNl l ≠ [] := by
  cases l with
  | nil => simp [splitNl]
  | cons c cs =>
    simp only [splitNl]
    cases h : splitNl cs with
    | nil => simp
    | cons x xs => by_cases hc : c = '\n' <;> simp [hc]

theorem getLastD_append_cons {α : Type} (xs : List α) (y : α) (ys : List α)
    (d : α) : (xs ++ y :: ys).getLastD d = (y :: ys).getLastD d := by
  induction xs with
  | nil => rfl
  | cons x xs ih =>
    cases xs with
    | nil => simp [List.getLastD_cons, ih]
    | cons x2 xs2 => simpa [List.getLastD_cons] using ih

theorem dropLast_append_cons {α : Type} (xs : List α) (y : α) (ys : List α) :
    (xs ++ y :: ys).dropLast = xs ++ (y :: ys).dropLast := by
  induction xs with
  | nil => rfl
  | cons x xs ih =>
    cases xs with
    | nil => simp [List.dropLast]
    | cons x2 xs2 =>
      simp only [List.cons_append, List.dropLast_cons₂] at ih ⊢
      simpa using ih

theorem splitNl_cons (c : Char) (l : List Char) :
    splitNl (c :: l) =
      if c = '\n' then [] :: splitNl l
      else (c :: (splitNl l).headD []) :: (splitNl l).tail := by
  cases h : splitNl l with
  | nil => exact absurd h (splitNl_ne_nil l)
  | cons x xs => by_cases hc : c = '\n' <;> simp [splitNl, h, hc]

theorem splitNl_append (a b : List Char) :
    splitNl (a ++ b) =
      (splitNl a).dropLast ++
        ((splitNl a).getLastD [] ++ (splitNl b).headD []) :: (splitNl b).tail := by
  induction a with
  | nil =>
    cases h : splitNl b with
    | nil => exact absurd h (splitNl_ne_nil b)
    | cons x xs => simp [splitNl, h]
  | cons c cs ih =>
    obtain ⟨s0, srest, hS⟩ : ∃ s0 srest, splitNl cs = s0 :: srest := by
      cases h : splitNl cs with
      | nil => exact absurd h (splitNl_ne_nil cs)
      | cons x xs => exact ⟨x, xs, rfl⟩
    obtain ⟨b0, brest, hB⟩ : ∃ b0 brest, splitNl b = b0 :: brest := by
      cases h : splitNl b with
      | nil => exact absurd h (splitNl_ne_nil b)
      | cons x xs => exact ⟨x, xs, rfl⟩
    rw [List.cons_append, splitNl_cons, ih, splitNl_cons, hS, hB]
    by_cases hc : c = '\n'
    · rw [if_pos hc, if_pos hc]
      cases srest with
      | nil => simp [List.getLastD_cons]
      | cons s1 srest2 => simp [List.getLastD_cons, List.dropLast]
    · rw [if_neg hc, if_neg hc]
      cases srest with
      | nil => simp [List.getLastD_cons]
      | cons s1 srest2 => simp [List.getLastD_cons, List.dropLast]

theorem splitNl_eq_singleton {l : List Char} (h : '\n' ∉ l) :
    splitNl l = [l] := by
  induction l with
  | nil => rfl
  | cons c cs ih =>
    have hc : c ≠ '\n' := fun hc => h (hc ▸ List.mem_cons_self c cs)
    have hcs : '\n' ∉ cs := fun hm => h (List.mem_cons_of_mem c hm)
    simp [splitNl, ih hcs, hc]

theorem nl_not_mem_getLastD (l : List Char) :
    '\n' ∉ (splitNl l).getLastD [] := by
  induction l with
  | nil => simp [splitNl]
  | cons c cs ih =>
    obtain ⟨s0, srest, hS⟩ : ∃ s0 srest, splitNl cs = s0 :: srest := by
      cases h : splitNl cs with
      | nil => exact absurd h (splitNl_ne_nil cs)
      | cons x xs => exact ⟨x, xs, rfl⟩
    rw [hS] at ih
    rw [splitNl_cons, hS]
    by_cases hc : c = '\n'
    · rw [if_pos hc]
      simp only [List.getLastD_cons] at ih ⊢
      exact ih
    · rw [if_neg hc]
      cases srest with
      | nil =>
        simp only [List.getLastD_cons, List.headD_cons, List.tail_cons] at ih ⊢
        intro hmem
        rcases List.mem_cons.mp hmem with h | h
        · exact hc h.symm
        · exact ih h
      | cons s1 srest2 =>
        simp only [List.getLastD_cons, List.headD_cons, List.tail_cons] at ih ⊢
        exact ih

/-! ### Lemmas about the tailer -/

theorem ext_readNewLines_of_no_growth (st : Ext.TailState) (file : List Char)
    (h : file.length ≤ st.fileOffset) :
    Ext.readNewLines st file = (st, []) := by
  simp [Ext.readNewLines, h]

theorem ext_readNewLines_of_growth (st : Ext.TailState) (file : List Char)
    (h : ¬ file.length ≤ st.fileOffset) :
    Ext.readNewLines st file =
      (⟨file.length,
          (splitNl (st.lineBuffer ++ file.drop st.fileOffset)).getLastD []⟩,
        (splitNl (st.lineBuffer ++ file.drop st.fileOffset)).dropLast.filter
          nonBlank) := by
  simp [Ext.readNewLines, h]

theorem ext_readNewLines_canon (f c : List Char) :
    (Ext.readNewLines (Ext.canonState f) (f ++ c)).1 = Ext.canonState (f ++ c) ∧
    (splitNl f).dropLast.filter nonBlank ++
        (Ext.readNewLines (Ext.canonState f) (f ++ c)).2
      = (splitNl (f ++ c)).dropLast.filter nonBlank := by
  by_cases hc : c = []
  · subst hc
    rw [List.append_nil]
    rw [ext_readNewLines_of_no_growth (Ext.canonState f) f (le_refl _)]
    exact ⟨rfl, by simp⟩
  · have hlen : ¬ (f ++ c).length ≤ (Ext.canonState f).fileOffset := by
      show ¬ (f ++ c).length ≤ f.length
      rw [List.length_append]
      simp only [not_le]
      exact Nat.lt_add_of_pos_right (List.length_pos.mpr hc)
    have hdrop : (f ++ c).drop (Ext.canonState f).fileOffset = c :=
      List.drop_left f c
    have hbuf : (Ext.canonState f).lineBuffer = (splitNl f).getLastD [] := rfl
    have hg : splitNl ((splitNl f).getLastD []) = [(splitNl f).getLastD []] :=
      splitNl_eq_singleton (nl_not_mem_getLastD f)
    have htext : splitNl ((splitNl f).getLastD [] ++ c)
        = ((splitNl f).getLastD [] ++ (splitNl c).headD []) :: (splitNl c).tail := by
      rw [splitNl_append, hg]
      simp
    have hfc := splitNl_append f c
    rw [ext_readNewLines_of_growth _ _ hlen, hdrop, hbuf, htext]
    constructor
    · simp only [Ext.canonState]
      rw [hfc, getLastD_append_cons]
    · rw [hfc, dropLast_append_cons, List.filter_append]

theorem ext_readSeq_canon (chunks : List (List Char)) :
    ∀ f : List Char,
      (Ext.readSeq (Ext.canonState f) f chunks).1
          = Ext.canonState (chunks.foldl (· ++ ·) f) ∧
      (splitNl f).dropLast.filter nonBlank ++
          (Ext.readSeq (Ext.canonState f) f chunks).2
        = (splitNl (chunks.foldl (· ++ ·) f)).dropLast.filter nonBlank := by
  induction chunks with
  | nil =>
    intro f
    exact ⟨rfl, by simp [Ext.readSeq]⟩
  | cons ch rest ih =>
    intro f
    have hstep := ext_readNewLines_canon f ch
    have hrest := ih (f ++ ch)
    constructor
    · show (Ext.readSeq (Ext.readNewLines (Ext.canonState f) (f ++ ch)).1
          (f ++ ch) rest).1 = _
      rw [hstep.1]
      exact hrest.1
    · show (splitNl f).dropLast.filter nonBlank ++
          ((Ext.readNewLines (Ext.canonState f) (f ++ ch)).2 ++
            (Ext.readSeq (Ext.readNewLines (Ext.canonState f) (f ++ ch)).1
              (f ++ ch) rest).2)
          = _
      rw [hstep.1, ← List.append_assoc, hstep.2]
      exact hrest.2

theorem srv_readNewLines_of_no_growth
    (process : Nat → Srv.TailerCtx → List Char → Srv.TailerCtx × List Srv.Msg)
    (agentId : Nat) (c : Srv.TailerCtx) (file : List Char)
    (h : file.length ≤ c.agent.fileOffset) :
    Srv.readNewLines process agentId c file = (c, []) := by
  simp [Srv.readNewLines, h]

theorem srv_processLines_inv
    (process : Nat → Srv.TailerCtx → List Char → Srv.TailerCtx × List Srv.Msg)
    (agentId : Nat) (P : Srv.TailerCtx → Prop)
    (hP : ∀ c l, P c → P (process agentId c l).1) :
    ∀ (ls : List (List Char)) (acc : Srv.TailerCtx × List Srv.Msg),
      P acc.1 → P (Srv.processLines process agentId ls acc).1 := by
  intro ls
  induction ls with
  | nil =>
    intro acc h
    simpa [Srv.processLines] using h
  | cons l ls ih =>
    intro acc h
    simp only [Srv.processLines, List.foldl_cons] at ih ⊢
    exact ih _ (hP _ _ h)

theorem srv_processLines_msgs
    (process : Nat → Srv.TailerCtx → List Char → Srv.TailerCtx × List Srv.Msg)
    (agentId : Nat) :
    ∀ (ls : List (List Char)) (acc : Srv.TailerCtx × List Srv.Msg),
      ∃ rest, (Srv.processLines process agentId ls acc).2 = acc.2 ++ rest := by
  intro ls
  induction ls with
  | nil =>
    intro acc
    exact ⟨[], by simp [Srv.processLines]⟩
  | cons l ls ih =>
    intro acc
    obtain ⟨rest, hrest⟩ :=
      ih ((process agentId acc.1 l).1, acc.2 ++ (process agentId acc.1 l).2)
    refine ⟨(process agentId acc.1 l).2 ++ rest, ?_⟩
    simp only [Srv.processLines, List.foldl_cons] at hrest ⊢
    rw [hrest, List.append_assoc]

/-! ### Claim theorems: the tailer -/

/-- C1: over any sequence of incremental reads, each read splits the buffered
partial line concatenated with the newly appended bytes on newline
boundaries, withholds the final unterminated fragment as the new buffer, and
hands every other non-blank fragment to the parser exactly once: the
concatenation of everything ever handed over equals the non-blank lines of
the final file contents before its trailing unterminated fragment, and the
buffer holds exactly that fragment.  A line delivered across two reads is
therefore parsed exactly once. -/
theorem tailer_hands_each_line_to_parser_exactly_once
    (chunks : List (List Char)) :
    Ext.readSeq ⟨0, []⟩ [] chunks =
      (Ext.canonState (chunks.foldl (· ++ ·) []),
        (splitNl (chunks.foldl (· ++ ·) [])).dropLast.filter nonBlank) := by
  obtain ⟨h1, h2⟩ := ext_readSeq_canon chunks []
  have h0 : Ext.canonState [] = (⟨0, []⟩ : Ext.TailState) := rfl
  rw [h0] at h1 h2
  have h2b : (Ext.readSeq ⟨0, []⟩ [] chunks).2
      = (splitNl (chunks.foldl (· ++ ·) [])).dropLast.filter nonBlank := by
    simpa [splitNl] using h2
  rw [Prod.ext_iff]
  exact ⟨h1, h2b⟩

/-- C4: a read either leaves the byte offset unchanged or advances it
exactly to the size seen by that read's stat; hence the offset is monotone
non-decreasing, and as long as it was within the file it stays within the
file.  Proved for both the extension tailer and the server tailer (the
latter for any line processor that does not touch the offset, as the
transcript parser does not). -/
theorem fileOffset_monotone_never_exceeds_size :
    (∀ (st : Ext.TailState) (file : List Char),
        st.fileOffset ≤ (Ext.readNewLines st file).1.fileOffset ∧
        ((Ext.readNewLines st file).1.fileOffset = st.fileOffset ∨
          (Ext.readNewLines st file).1.fileOffset = file.length) ∧
        (st.fileOffset ≤ file.length →
          (Ext.readNewLines st file).1.fileOffset ≤ file.length)) ∧
    (∀ (process : Nat → Srv.TailerCtx → List Char → Srv.TailerCtx × List Srv.Msg),
        (∀ i c l, ((process i c l).1).agent.fileOffset = c.agent.fileOffset) →
        ∀ (i : Nat) (c : Srv.TailerCtx) (file : List Char),
          c.agent.fileOffset
              ≤ (Srv.readNewLines process i c file).1.agent.fileOffset ∧
          ((Srv.readNewLines process i c file).1.agent.fileOffset
                = c.agent.fileOffset ∨
            (Srv.readNewLines process i c file).1.agent.fileOffset
                = file.length) ∧
          (c.agent.fileOffset ≤ file.length →
            (Srv.readNewLines process i c file).1.agent.fileOffset
                ≤ file.length)) := by
  constructor
  · intro st file
    by_cases h : file.length ≤ st.fileOffset
    · rw [ext_readNewLines_of_no_growth st file h]
      exact ⟨le_refl _, Or.inl rfl, fun hb => hb⟩
    · rw [ext_readNewLines_of_growth st file h]
      exact ⟨le_of_lt (not_le.mp h), Or.inr rfl, fun _ => le_refl _⟩
  · intro process hoff i c file
    by_cases h : file.length ≤ c.agent.fileOffset
    · rw [srv_readNewLines_of_no_growth process i c file h]
      exact ⟨le_refl _, Or.inl rfl, fun hb => hb⟩
    · have hres : (Srv.readNewLines process i c file).1.agent.fileOffset
          = file.length := by
        simp only [Srv.readNewLines, if_neg h]
        refine srv_processLines_inv process i
          (fun ctx => ctx.agent.fileOffset = file.length) ?_ _ _ ?_
        · intro c' l hc'
          rw [hoff]
          exact hc'
        · split_ifs <;> rfl
      rw [hres]
      exact ⟨le_of_lt (not_le.mp h), Or.inr rfl, fun _ => le_refl _⟩

theorem fileOffset_monotone_never_exceeds_size_witness :
    ((1 : Nat) ≤ (Ext.readNewLines ⟨1, []⟩ ['a', 'b']).1.fileOffset ∧
      (Ext.readNewLines ⟨1, []⟩ ['a', 'b']).1.fileOffset ≤ 2) ∧
    (Srv.readNewLines (fun _ c _ => (c, [])) 1
        ⟨⟨1, true, "s", "p", "f", 0, [], [], [], [], [], [], false, false,
          false⟩, false, false⟩ ['a']).1.agent.fileOffset ≤ 1 := by
  have h := fileOffset_monotone_never_exceeds_size
  refine ⟨⟨(h.1 ⟨1, []⟩ ['a', 'b']).1,
    (h.1 ⟨1, []⟩ ['a', 'b']).2.2 (by decide)⟩, ?_⟩
  exact ((h.2 (fun _ c _ => (c, [])) (fun _ _ _ => rfl) 1
    ⟨⟨1, true, "s", "p", "f", 0, [], [], [], [], [], [], false, false,
      false⟩, false, false⟩ ['a']).2.2 (by decide))

/-- C5: a read invoked when the file size is at most the recorded offset is
a complete no-op for both tailer variants: state unchanged, nothing handed
to the parser, nothing posted. -/
theorem readAvailable_noop_when_no_new_bytes :
    (∀ (st : Ext.TailState) (file : List Char),
        file.length ≤ st.fileOffset → Ext.readNewLines st file = (st, [])) ∧
    (∀ (process : Nat → Srv.TailerCtx → List Char → Srv.TailerCtx × List Srv.Msg)
        (agentId : Nat) (c : Srv.TailerCtx) (file : List Char),
        file.length ≤ c.agent.fileOffset →
          Srv.readNewLines process agentId c file = (c, [])) :=
  ⟨ext_readNewLines_of_no_growth, srv_readNewLines_of_no_growth⟩

theorem readAvailable_noop_when_no_new_bytes_witness :
    Ext.readNewLines ⟨2, ['a']⟩ ['x', 'y'] = (⟨2, ['a']⟩, []) ∧
    Srv.readNewLines (fun _ c _ => (c, [])) 1
        ⟨⟨1, true, "s", "p", "f", 2, ['a'], [], [], [], [], [], false, false,
          false⟩, true, true⟩ ['x', 'y'] =
      (⟨⟨1, true, "s", "p", "f", 2, ['a'], [], [], [], [], [], false, false,
          false⟩, true, true⟩, []) :=
  ⟨readAvailable_noop_when_no_new_bytes.1 _ _ (by decide),
    readAvailable_noop_when_no_new_bytes.2 _ _ _ _ (by decide)⟩

theorem srv_readNewLines_of_growth
    (process : Nat → Srv.TailerCtx → List Char → Srv.TailerCtx × List Srv.Msg)
    (i : Nat) (c : Srv.TailerCtx) (file : List Char)
    (h : ¬ file.length ≤ c.agent.fileOffset) :
    Srv.readNewLines process i c file =
      Srv.processLines process i
        ((splitNl (c.agent.lineBuffer ++ file.drop c.agent.fileOffset)).dropLast.filter
          nonBlank)
        (if (splitNl (c.agent.lineBuffer ++ file.drop c.agent.fileOffset)).dropLast.any
            nonBlank then
          (if c.agent.permissionSent then
            (⟨{ Srv.afterRead c file with permissionSent := false },
              false, false⟩, [Srv.Msg.permissionClear i])
          else
            (⟨Srv.afterRead c file, false, false⟩, []))
        else
          (⟨Srv.afterRead c file, c.waitingTimer, c.permissionTimer⟩, [])) := by
  simp only [Srv.readNewLines, if_neg h, Srv.afterRead]

/-- C7: whenever a read delivers at least one non-blank line, the
waiting-fallback and permission timers are cancelled and, if the
permission-requested flag was set, it is cleared and a permission-clear
notification is posted before any message produced by line processing.  The
line processor is abstract; the hypotheses record that the transcript parser
never arms a timer nor sets the permission flag (per the state machine those
happen only on timer expiry), so the cancelled and cleared state survives
processing of the delivered lines. -/
theorem new_line_clears_pending_permission_and_timers
    (process : Nat → Srv.TailerCtx → List Char → Srv.TailerCtx × List Srv.Msg)
    (hperm : ∀ i c l, c.agent.permissionSent = false →
      ((process i c l).1).agent.permissionSent = false)
    (hwt : ∀ i c l, c.waitingTimer = false →
      ((process i c l).1).waitingTimer = false)
    (hpt : ∀ i c l, c.permissionTimer = false →
      ((process i c l).1).permissionTimer = false)
    (agentId : Nat) (c : Srv.TailerCtx) (file : List Char)
    (hgrow : ¬ file.length ≤ c.agent.fileOffset)
    (hnb : ((splitNl (c.agent.lineBuffer ++
        file.drop c.agent.fileOffset)).dropLast).any nonBlank = true) :
    (Srv.readNewLines process agentId c file).1.waitingTimer = false ∧
    (Srv.readNewLines process agentId c file).1.permissionTimer = false ∧
    (Srv.readNewLines process agentId c file).1.agent.permissionSent = false ∧
    (c.agent.permissionSent = true →
      (Srv.readNewLines process agentId c file).2.head?
        = some (Srv.Msg.permissionClear agentId)) := by
  rw [srv_readNewLines_of_growth process agentId c file hgrow, if_pos hnb]
  by_cases hp : c.agent.permissionSent = true
  · rw [if_pos hp]
    refine ⟨?_, ?_, ?_, ?_⟩
    · exact srv_processLines_inv process agentId
        (fun ctx => ctx.waitingTimer = false)
        (fun c' l hc' => hwt agentId c' l hc') _ _ rfl
    · exact srv_processLines_inv process agentId
        (fun ctx => ctx.permissionTimer = false)
        (fun c' l hc' => hpt agentId c' l hc') _ _ rfl
    · exact srv_processLines_inv process agentId
        (fun ctx => ctx.agent.permissionSent = false)
        (fun c' l hc' => hperm agentId c' l hc') _ _ rfl
    · intro _
      obtain ⟨rest, hrest⟩ := srv_processLines_msgs process agentId _
        (⟨{ Srv.afterRead c file with permissionSent := false }, false, false⟩,
          [Srv.Msg.permissionClear agentId])
      rw [hrest]
      rfl
  · rw [if_neg hp]
    have hps : c.agent.permissionSent = false := by
      cases hcb : c.agent.permissionSent
      · rfl
      · exact absurd hcb hp
    refine ⟨?_, ?_, ?_, fun htrue => absurd htrue hp⟩
    · exact srv_processLines_inv process agentId
        (fun ctx => ctx.waitingTimer = false)
        (fun c' l hc' => hwt agentId c' l hc') _ _ rfl
    · exact srv_processLines_inv process agentId
        (fun ctx => ctx.permissionTimer = false)
        (fun c' l hc' => hpt agentId c' l hc') _ _ rfl
    · exact srv_processLines_inv process agentId
        (fun ctx => ctx.agent.permissionSent = false)
        (fun c' l hc' => hperm agentId c' l hc') _ _ hps

theorem new_line_clears_pending_permission_and_timers_witness :
    (Srv.readNewLines (fun _ c _ => (c, [])) 7
        ⟨⟨7, true, "s", "p", "f", 0, [], [], [], [], [], [], false, true,
          false⟩, true, true⟩ ['h', 'i', '\n']).1.agent.permissionSent
        = false ∧
    (Srv.readNewLines (fun _ c _ => (c, [])) 7
        ⟨⟨7, true, "s", "p", "f", 0, [], [], [], [], [], [], false, true,
          false⟩, true, true⟩ ['h', 'i', '\n']).2.head?
        = some (Srv.Msg.permissionClear 7) := by
  have h := new_line_clears_pending_permission_and_timers
    (fun _ c _ => (c, [])) (fun _ _ _ hc => hc) (fun _ _ _ hc => hc)
    (fun _ _ _ hc => hc) 7
    ⟨⟨7, true, "s", "p", "f", 0, [], [], [], [], [], [], false, true,
      false⟩, true, true⟩ ['h', 'i', '\n'] (by decide) (by decide)
  exact ⟨h.2.2.1, h.2.2.2 rfl⟩

/-! ### Lemmas about the parsers -/

theorem isType_unique {r : JVal} {s t : String} (h : isType r s = true)
    (hne : t ≠ s) : isType r t = false := by
  cases r with
  | obj fs =>
    simp only [isType] at h ⊢
    cases hg : jGet fs "type" with
    | none => rw [hg] at h
    | some v =>
      rw [hg] at h
      cases v with
      | str s2 =>
        have hs : s2 = s := by simpa using h
        subst hs
        simpa using fun hh => hne hh.symm
      | num n => simp at h
      | bool b => simp at h
      | null => simp at h
      | arr xs => simp at h
      | obj fs2 => simp at h
  | str s2 => simp [isType] at h
  | num n => simp [isType] at h
  | bool b => simp [isType] at h
  | null => simp [isType] at h
  | arr xs => simp [isType] at h

theorem setAdd_of_mem {α : Type} [DecidableEq α] {l : List α} {a : α}
    (h : a ∈ l) : setAdd l a = l := by
  simp [setAdd, h]

theorem setAdd_nodup {α : Type} [DecidableEq α] {l : List α} {a : α}
    (h : l.Nodup) : (setAdd l a).Nodup := by
  by_cases hm : a ∈ l
  · rw [setAdd_of_mem hm]; exact h
  · rw [setAdd, if_neg (by simpa using hm)]
    simpa [List.nodup_append] using ⟨h, hm⟩

theorem finishBlocks_state_of_absent (blocks : List JVal) :
    ∀ (active : List String) (msgs : List Ext.Msg),
      (∀ tid ∈ resultIdsOf blocks, tid ∉ active) →
      (Ext.finishBlocks active msgs blocks).1 = active := by
  induction blocks with
  | nil => intro active msgs _; rfl
  | cons b bs ih =>
    intro active msgs habs
    by_cases hb : blockType b = some "tool_result"
    · cases hs : strTruthy b "tool_use_id" with
      | none =>
        rw [Ext.finishBlocks, if_pos hb, hs]
        refine ih active msgs (fun tid htid => habs tid ?_)
        rw [resultIdsOf, if_pos hb, hs]
        exact htid
      | some tid =>
        simp only [Ext.finishBlocks, if_pos hb, hs]
        have hids : resultIdsOf (b :: bs) = tid :: resultIdsOf bs := by
          rw [resultIdsOf, if_pos hb, hs]
        have hmem : tid ∉ active := habs tid (by rw [hids]; exact List.mem_cons_self _ _)
        have hfe : active.filter (fun x => x ≠ tid) = active := by
          rw [List.filter_eq_self]
          intro a ha
          simp only [decide_eq_true_eq]
          exact fun he => hmem (he ▸ ha)
        rw [hfe]
        refine ih active _ (fun t ht => habs t ?_)
        rw [hids]
        exact List.mem_cons_of_mem _ ht
    · rw [Ext.finishBlocks, if_neg hb]
      refine ih active msgs (fun tid htid => habs tid ?_)
      rw [resultIdsOf, if_neg hb]
      exact htid

theorem startBlocks_state_of_mem (blocks : List JVal) :
    ∀ (active : List String) (msgs : List Ext.Msg),
      (∀ bid ∈ useIdsOf blocks, bid ∈ active) →
      (Ext.startBlocks active msgs blocks).1 = active := by
  induction blocks with
  | nil => intro active msgs _; rfl
  | cons b bs ih =>
    intro active msgs hsub
    by_cases hb : blockType b = some "tool_use"
    · cases hs : strTruthy b "id" with
      | none =>
        rw [Ext.startBlocks, if_pos hb, hs]
        refine ih active msgs (fun bid hbid => hsub bid ?_)
        rw [useIdsOf, if_pos hb, hs]
        exact hbid
      | some bid =>
        simp only [Ext.startBlocks, if_pos hb, hs]
        have hids : useIdsOf (b :: bs) = bid :: useIdsOf bs := by
          rw [useIdsOf, if_pos hb, hs]
        have hmem : bid ∈ active := hsub bid (by rw [hids]; exact List.mem_cons_self _ _)
        rw [setAdd_of_mem hmem]
        refine ih active _ (fun x hx => hsub x ?_)
        rw [hids]
        exact List.mem_cons_of_mem _ hx
    · rw [Ext.startBlocks, if_neg hb]
      refine ih active msgs (fun bid hbid => hsub bid ?_)
      rw [useIdsOf, if_neg hb]
      exact hbid

theorem finishBlocks_filter (blocks : List JVal) :
    ∀ (active : List String) (msgs : List Ext.Msg),
      (Ext.finishBlocks active msgs blocks).1
        = active.filter (fun x => x ∉ resultIdsOf blocks) := by
  induction blocks with
  | nil =>
    intro active msgs
    simp [Ext.finishBlocks, resultIdsOf]
  | cons b bs ih =>
    intro active msgs
    by_cases hb : blockType b = some "tool_result"
    · cases hs : strTruthy b "tool_use_id" with
      | none =>
        simp only [Ext.finishBlocks, resultIdsOf, if_pos hb, hs]
        exact ih active msgs
      | some tid =>
        simp only [Ext.finishBlocks, resultIdsOf, if_pos hb, hs]
        rw [ih]
        rw [List.filter_filter]
        apply List.filter_congr
        intro x _
        by_cases h1 : x = tid <;> by_cases h2 : x ∈ resultIdsOf bs <;>
          simp [h1, h2]
    · simp only [Ext.finishBlocks, resultIdsOf, if_neg hb]
      exact ih active msgs

theorem startBlocks_nodup (blocks : List JVal) :
    ∀ (active : List String) (msgs : List Ext.Msg), active.Nodup →
      ((Ext.startBlocks active msgs blocks).1).Nodup := by
  induction blocks with
  | nil => intro active msgs h; exact h
  | cons b bs ih =>
    intro active msgs h
    by_cases hb : blockType b = some "tool_use"
    · cases hs : strTruthy b "id" with
      | none =>
        simp only [Ext.startBlocks, if_pos hb, hs]
        exact ih active msgs h
      | some bid =>
        simp only [Ext.startBlocks, if_pos hb, hs]
        exact ih _ _ (setAdd_nodup h)
    · simp only [Ext.startBlocks, if_neg hb]
      exact ih active msgs h

theorem finishBlocks_nodup (blocks : List JVal) (active : List String)
    (msgs : List Ext.Msg) (h : active.Nodup) :
    ((Ext.finishBlocks active msgs blocks).1).Nodup := by
  rw [finishBlocks_filter]
  exact h.filter _

theorem processRecord_nodup (active : List String) (r : JVal)
    (h : active.Nodup) : ((Ext.processRecord active r).1).Nodup := by
  unfold Ext.processRecord
  by_cases ha : isType r "assistant" = true
  · rw [if_pos ha]
    cases hm : msgContent r with
    | none => exact h
    | some blocks => exact startBlocks_nodup blocks active [] h
  · rw [if_neg ha]
    by_cases hu : isType r "user" = true
    · rw [if_pos hu]
      cases hm : msgContent r with
      | none => exact h
      | some blocks =>
        dsimp only
        by_cases hany : blocks.any (fun b => blockType b == some "tool_result") = true
        · rw [if_pos hany]
          exact finishBlocks_nodup blocks active [] h
        · rw [if_neg hany]
          exact List.nodup_nil
    · rw [if_neg hu]
      exact h

theorem processRecords_nodup (rs : List JVal) :
    ∀ active : List String, active.Nodup →
      (Ext.processRecords active rs).Nodup := by
  induction rs with
  | nil => intro active h; exact h
  | cons r rs ih =>
    intro active h
    simp only [Ext.processRecords, List.foldl_cons]
    exact ih _ (processRecord_nodup active r h)

/-! ### Claim theorems: the parsers -/

/-- C6: parsing a user-turn record that contains no tool-result blocks (a
plain human prompt) clears every in-flight tool-invocation id, status and
name, clears the waiting and permission flags, and posts exactly the
activity-cleared notification, for every agent state.  The server parser is
modelled from the spec (its module transcriptParser.ts is absent from the
provided sources); the extension variant, whose only per-session parse state
is the active id set, likewise empties it and posts its clear message. -/
theorem plain_prompt_clears_all_in_flight_activity
    (agentId : Nat) (c : Srv.TailerCtx) (r : JVal)
    (h : plainUserPrompt r = true) :
    ((Srv.processTranscriptLine agentId c r).1.agent.activeToolIds = [] ∧
      (Srv.processTranscriptLine agentId c r).1.agent.activeToolStatuses = [] ∧
      (Srv.processTranscriptLine agentId c r).1.agent.activeToolNames = [] ∧
      (Srv.processTranscriptLine agentId c r).1.agent.isWaiting = false ∧
      (Srv.processTranscriptLine agentId c r).1.agent.permissionSent = false ∧
      (Srv.processTranscriptLine agentId c r).2
        = [Srv.Msg.toolsClear agentId]) ∧
    (∀ active : List String,
      Ext.processRecord active r = ([], [Ext.Msg.toolsClear])) := by
  unfold plainUserPrompt at h
  rw [Bool.and_eq_true] at h
  obtain ⟨hu, hrest⟩ := h
  cases hm : msgContent r with
  | none => rw [hm] at hrest; simp at hrest
  | some blocks =>
    rw [hm] at hrest
    have hno : (blocks.any (fun b => blockType b == some "tool_result"))
        = false := by simpa using hrest
    have hasst : isType r "assistant" = false := isType_unique hu (by decide)
    constructor
    · simp only [Srv.processTranscriptLine, hasst, hu, hm, hno]
      simp
    · intro active
      simp only [Ext.processRecord, hasst, hu, hm, hno]
      simp

theorem plain_prompt_clears_all_in_flight_activity_witness :
    (Srv.processTranscriptLine 5
        ⟨⟨5, true, "s", "p", "f", 0, [], ["t1"], [("t1", "Reading x")],
          [("t1", "Read")], [], [], true, true, true⟩, true, true⟩
        (JVal.obj [("type", JVal.str "user"),
          ("message", JVal.obj [("content",
            JVal.arr [JVal.obj [("type", JVal.str "text")]])])])).1.agent.activeToolIds
      = [] ∧
    (Srv.processTranscriptLine 5
        ⟨⟨5, true, "s", "p", "f", 0, [], ["t1"], [("t1", "Reading x")],
          [("t1", "Read")], [], [], true, true, true⟩, true, true⟩
        (JVal.obj [("type", JVal.str "user"),
          ("message", JVal.obj [("content",
            JVal.arr [JVal.obj [("type", JVal.str "text")]])])])).2
      = [Srv.Msg.toolsClear 5] ∧
    Ext.processRecord ["t1"]
        (JVal.obj [("type", JVal.str "user"),
          ("message", JVal.obj [("content",
            JVal.arr [JVal.obj [("type", JVal.str "text")]])])])
      = ([], [Ext.Msg.toolsClear]) := by
  have h := plain_prompt_clears_all_in_flight_activity 5
    ⟨⟨5, true, "s", "p", "f", 0, [], ["t1"], [("t1", "Reading x")],
      [("t1", "Read")], [], [], true, true, true⟩, true, true⟩
    (JVal.obj [("type", JVal.str "user"),
      ("message", JVal.obj [("content",
        JVal.arr [JVal.obj [("type", JVal.str "text")]])])])
    (by rfl)
  exact ⟨h.1.1, h.1.2.2.2.2.2, h.2 ["t1"]⟩

/-- C8: an assistant record holding a tool_use block named Read with a
file_path input yields a tool-started event whose status is the word Reading
followed by the basename of the path; the scenario record from the spec
yields exactly the status Reading App.tsx; a Bash block yields a command
preview truncated at 30 characters; any unrecognized tool name yields the
generic Using form. -/
theorem formatToolStatus_read_bash_and_default :
    (Ext.processRecord []
        (JVal.obj [("type", JVal.str "assistant"),
          ("message", JVal.obj [("content", JVal.arr
            [JVal.obj [("type", JVal.str "tool_use"), ("id", JVal.str "t1"),
              ("name", JVal.str "Read"),
              ("input", JVal.obj [("file_path", JVal.str "/a/App.tsx")])]])])])
      = (["t1"], [Ext.Msg.toolStart "t1" "Reading App.tsx"])) ∧
    (∀ p : String, formatToolStatus "Read" [("file_path", JVal.str p)]
        = "Reading " ++ basename p) ∧
    (∀ cmd : String, formatToolStatus "Bash" [("command", JVal.str cmd)]
        = "Running: " ++ (if 30 < cmd.length then cmd.take 30 ++ "…" else cmd)) ∧
    (∀ (toolName : String) (input : List (String × JVal)),
        toolName ∉ ["Read", "Edit", "Write", "Bash", "Glob", "Grep",
          "WebFetch", "WebSearch", "Task"] →
        formatToolStatus toolName input = "Using " ++ toolName) := by
  refine ⟨by decide, fun p => rfl, fun cmd => rfl, ?_⟩
  intro toolName input h
  simp only [List.mem_cons, List.not_mem_nil, or_false, not_or] at h
  obtain ⟨h1, h2, h3, h4, h5, h6, h7, h8, h9⟩ := h
  simp [formatToolStatus, h1, h2, h3, h4, h5, h6, h7, h8, h9]

theorem formatToolStatus_read_bash_and_default_witness :
    formatToolStatus "MysteryTool" [] = "Using MysteryTool" :=
  formatToolStatus_read_bash_and_default.2.2.2 "MysteryTool" [] (by decide)

/-- C9: inconsistent tool events are ignored idempotently.  A tool-finished
record whose invocation ids are all absent from the in-flight set leaves the
set unchanged; a duplicate tool-started record whose ids are all already in
flight leaves it unchanged; a finish removes exactly the finished ids (each
at most once, since the set stays duplicate-free); and over every record
sequence the set remains duplicate-free, so its size can never go negative
nor an id be removed twice. -/
theorem inconsistent_tool_events_ignored :
    (∀ (active : List String) (r : JVal),
        isType r "user" = true → hasToolResult r = true →
        (∀ tid ∈ toolResultIds r, tid ∉ active) →
        (Ext.processRecord active r).1 = active) ∧
    (∀ (active : List String) (r : JVal),
        isType r "assistant" = true →
        (∀ bid ∈ toolUseIds r, bid ∈ active) →
        (Ext.processRecord active r).1 = active) ∧
    (∀ (active : List String) (r : JVal),
        isType r "user" = true → hasToolResult r = true →
        (Ext.processRecord active r).1
          = active.filter (fun x => x ∉ toolResultIds r)) ∧
    (∀ (active : List String) (r : JVal), active.Nodup →
        ((Ext.processRecord active r).1).Nodup) ∧
    (∀ (active : List String) (rs : List JVal), active.Nodup →
        (Ext.processRecords active rs).Nodup) := by
  have hbranch : ∀ (active : List String) (r : JVal) (blocks : List JVal),
      isType r "user" = true → msgContent r = some blocks →
      (blocks.any (fun b => blockType b == some "tool_result")) = true →
      Ext.processRecord active r = Ext.finishBlocks active [] blocks := by
    intro active r blocks hu hm hany
    have hasst : isType r "assistant" = false := isType_unique hu (by decide)
    simp only [Ext.processRecord, hasst, hu, hm, hany]
    simp
  refine ⟨?_, ?_, ?_, processRecord_nodup,
    fun active rs h => processRecords_nodup rs active h⟩
  · intro active r hu hr habs
    unfold hasToolResult at hr
    cases hm : msgContent r with
    | none => rw [hm] at hr; simp at hr
    | some blocks =>
      rw [hm] at hr
      rw [hbranch active r blocks hu hm hr]
      refine finishBlocks_state_of_absent blocks active [] ?_
      intro tid htid
      refine habs tid ?_
      unfold toolResultIds
      rw [hm]
      exact htid
  · intro active r ha hsub
    have hun : isType r "assistant" = true := ha
    cases hm : msgContent r with
    | none =>
      simp only [Ext.processRecord, hun, hm]
      simp
    | some blocks =>
      have hgoal : Ext.processRecord active r = Ext.startBlocks active [] blocks := by
        simp only [Ext.processRecord, hun, hm]
        simp
      rw [hgoal]
      refine startBlocks_state_of_mem blocks active [] ?_
      intro bid hbid
      refine hsub bid ?_
      unfold toolUseIds
      rw [hm]
      exact hbid
  · intro active r hu hr
    unfold hasToolResult at hr
    cases hm : msgContent r with
    | none => rw [hm] at hr; simp at hr
    | some blocks =>
      rw [hm] at hr
      rw [hbranch active r blocks hu hm hr, finishBlocks_filter]
      apply List.filter_congr
      intro x _
      unfold toolResultIds
      rw [hm]

theorem inconsistent_tool_events_ignored_witness :
    (Ext.processRecord ["a"]
        (JVal.obj [("type", JVal.str "user"),
          ("message", JVal.obj [("content", JVal.arr
            [JVal.obj [("type", JVal.str "tool_result"),
              ("tool_use_id", JVal.str "zz")]])])])).1 = ["a"] ∧
    (Ext.processRecord ["t1"]
        (JVal.obj [("type", JVal.str "assistant"),
          ("message", JVal.obj [("content", JVal.arr
            [JVal.obj [("type", JVal.str "tool_use"),
              ("id", JVal.str "t1")]])])])).1 = ["t1"] ∧
    (Ext.processRecords ["a"]
        [JVal.obj [("type", JVal.str "user"),
          ("message", JVal.obj [("content", JVal.arr
            [JVal.obj [("type", JVal.str "tool_result"),
              ("tool_use_id", JVal.str "zz")]])])]]).Nodup := by
  have h := inconsistent_tool_events_ignored
  refine ⟨h.1 ["a"] _ (by decide) (by decide) (by decide),
    h.2.1 ["t1"] _ (by decide) (by decide),
    h.2.2.2.2 ["a"] _ (by decide)⟩

/-! ### Lemmas about the association-list maps -/

theorem mapLookup_cons {α β : Type} [DecidableEq α] (p : α × β)
    (l : List (α × β)) (k : α) :
    mapLookup (p :: l) k = if p.1 = k then some p.2 else mapLookup l k := by
  by_cases hp : p.1 = k <;> simp [mapLookup, List.find?, hp]

theorem mapLookup_mapSet_self {α β : Type} [DecidableEq α] (l : List (α × β))
    (k : α) (v : β) : mapLookup (mapSet l k v) k = some v := by
  induction l with
  | nil => simp [mapSet, mapLookup, List.find?]
  | cons p rest ih =>
    by_cases hp : p.1 = k
    · simp [mapSet, hp, mapLookup_cons]
    · rw [mapSet, if_neg hp, mapLookup_cons, if_neg hp]
      exact ih

theorem mapLookup_mapSet_ne {α β : Type} [DecidableEq α] (l : List (α × β))
    (k k2 : α) (v : β) (h : k2 ≠ k) :
    mapLookup (mapSet l k v) k2 = mapLookup l k2 := by
  induction l with
  | nil =>
    rw [mapSet, mapLookup_cons, if_neg (fun hh => h hh.symm)]
  | cons p rest ih =>
    by_cases hp : p.1 = k
    · rw [mapSet, if_pos hp, mapLookup_cons, mapLookup_cons]
      have : ¬ (k = k2) := fun hh => h hh.symm
      rw [if_neg this, if_neg (by rw [hp]; exact this)]
    · rw [mapSet, if_neg hp, mapLookup_cons, mapLookup_cons]
      by_cases hp2 : p.1 = k2
      · rw [if_pos hp2, if_pos hp2]
      · rw [if_neg hp2, if_neg hp2]
        exact ih

theorem mapSet_keys_of_found {α β : Type} [DecidableEq α]
    (l : List (α × β)) (k : α) (v : β) (h : mapLookup l k ≠ none) :
    (mapSet l k v).map Prod.fst = l.map Prod.fst := by
  induction l with
  | nil => exact absurd rfl h
  | cons p rest ih =>
    by_cases hp : p.1 = k
    · rw [mapSet, if_pos hp]
      simp [hp]
    · rw [mapSet, if_neg hp]
      rw [mapLookup_cons, if_neg hp] at h
      simp only [List.map_cons]
      rw [ih h]

theorem mapSet_of_absent {α β : Type} [DecidableEq α] (l : List (α × β))
    (k : α) (v : β) (h : mapLookup l k = none) :
    mapSet l k v = l ++ [(k, v)] := by
  induction l with
  | nil => rfl
  | cons p rest ih =>
    rw [mapLookup_cons] at h
    by_cases hp : p.1 = k
    · rw [if_pos hp] at h; exact absurd h (by simp)
    · rw [if_neg hp] at h
      rw [mapSet, if_neg hp, ih h, List.cons_append]

theorem mapLookup_filter_ne {α β : Type} [DecidableEq α] (l : List (α × β))
    (k : α) : mapLookup (l.filter (fun pr => pr.1 ≠ k)) k = none := by
  have : List.find? (fun p => p.1 = k) (l.filter (fun pr => pr.1 ≠ k))
      = none := by
    rw [List.find?_eq_none]
    intro x hx
    have := (List.mem_filter.mp hx).2
    simpa using this
  simp [mapLookup, this]

theorem contains_filter_ne {α : Type} [DecidableEq α] (l : List α) (k : α) :
    (l.filter (fun i => i ≠ k)).contains k = false := by
  rw [List.contains_eq_any_beq]
  rw [List.any_eq_false]
  intro x hx
  have hne := (List.mem_filter.mp hx).2
  simp only [decide_eq_true_eq] at hne
  simpa using fun hh => hne hh.symm

/-! ### Claim theorems: the session registry -/

/-- C10: removing a session whose id is not in the session map is a complete
no-op: no timers cancelled, no watchers closed, the map, the persisted
snapshot and the outgoing messages all unchanged; consequently removal is
idempotent, since a second removal of the same id finds nothing. -/
theorem remove_unknown_session_is_noop :
    (∀ (w : Srv.World) (agentId : Nat),
        mapLookup w.agents agentId = none → Srv.removeAgent agentId w = w) ∧
    (∀ (w : Srv.World) (agentId : Nat),
        Srv.removeAgent agentId (Srv.removeAgent agentId w)
          = Srv.removeAgent agentId w) := by
  have h1 : ∀ (w : Srv.World) (agentId : Nat),
      mapLookup w.agents agentId = none → Srv.removeAgent agentId w = w := by
    intro w agentId h
    simp [Srv.removeAgent, h]
  refine ⟨h1, ?_⟩
  intro w agentId
  cases h : mapLookup w.agents agentId with
  | none => rw [h1 w agentId h, h1 w agentId h]
  | some a =>
    apply h1
    have hag : (Srv.removeAgent agentId w).agents
        = w.agents.filter (fun pr => pr.1 ≠ agentId) := by
      simp only [Srv.removeAgent, h, Srv.persistAgents,
        Srv.cancelWaitingTimer, Srv.cancelPermissionTimer]
      split_ifs <;> rfl
    rw [hag]
    exact mapLookup_filter_ne w.agents agentId

theorem remove_unknown_session_is_noop_witness :
    Srv.removeAgent 9 (Srv.freshWorld 0 []) = Srv.freshWorld 0 [] :=
  remove_unknown_session_is_noop.1 (Srv.freshWorld 0 []) 9 (by rfl)

/-- C2 counterexample: a previously-unseen, recently-modified log file in a
tracked, focused session's directory does not cause a reassignment.  Concrete
run: agent 1 is tracked and focused on dir/s1.jsonl; the scan sees the new
file dir/s2.jsonl (mtime now, empty); afterwards the map holds two agents,
agent 1 still points at its old file with its old offset, so the claimed
outcome (agent 1 swapped to the new file with no duplicate created) is
false. -/
theorem reset_reassignment_counterexample :
    let agentA : Srv.AgentState :=
      ⟨1, false, "s1", "dir", "dir/s1.jsonl", 5, [], [], [], [], [], [],
        false, false, false⟩
    let w0 : Srv.World :=
      ⟨1000000, [(1, agentA)], ["dir/s1.jsonl"], [(1, "dir/s1.jsonl")], [1],
        [], [], [], 2, some 1, true, [⟨1, "s1", "dir/s1.jsonl", "dir"⟩], []⟩
    let w1 := Srv.scanForNewJsonlFiles "dir" ["dir/s1.jsonl", "dir/s2.jsonl"]
      [("dir/s2.jsonl", ⟨1000000, []⟩)] w0
    ¬ ((mapLookup w1.agents 1).map (fun a => a.jsonlFile)
          = some "dir/s2.jsonl" ∧
        w1.agents.map Prod.fst = [1]) ∧
    w1.agents.map Prod.fst = [1, 2] ∧
    (mapLookup w1.agents 1).map (fun a => a.jsonlFile)
        = some "dir/s1.jsonl" ∧
    (mapLookup w1.agents 1).map (fun a => a.fileOffset) = some 5 := by
  decide

theorem reassign_unfold
    (process : Nat → Srv.TailerCtx → List Char → Srv.TailerCtx × List Srv.Msg)
    (agentId : Nat) (newPath : String) (fsys : Srv.FileSys) (w : Srv.World)
    (a : Srv.AgentState) (hagent : mapLookup w.agents agentId = some a) :
    Srv.reassignAgentToFile process agentId newPath fsys w =
      Srv.readNewLinesW process agentId fsys
        { w with
            fileWatchers :=
              mapSet (w.fileWatchers.filter (fun pr => pr.1 ≠ agentId))
                agentId newPath
            pollingTimers :=
              setAdd (w.pollingTimers.filter (fun i => i ≠ agentId)) agentId
            waitingTimers := w.waitingTimers.filter (fun i => i ≠ agentId)
            permissionTimers :=
              (w.permissionTimers.filter (fun i => i ≠ agentId)).filter
                (fun i => i ≠ agentId)
            agents := mapSet w.agents agentId
              { a with
                  jsonlFile := newPath
                  fileOffset := 0
                  lineBuffer := ([] : List Char)
                  activeToolIds := ([] : List String)
                  activeToolStatuses := ([] : List (String × String))
                  activeToolNames := ([] : List (String × String))
                  activeSubagentToolIds := ([] : List (String × List String))
                  activeSubagentToolNames :=
                    ([] : List (String × List (String × String)))
                  isWaiting := false
                  permissionSent := false }
            store := (mapSet w.agents agentId
              { a with
                  jsonlFile := newPath
                  fileOffset := 0
                  lineBuffer := ([] : List Char)
                  activeToolIds := ([] : List String)
                  activeToolStatuses := ([] : List (String × String))
                  activeToolNames := ([] : List (String × String))
                  activeSubagentToolIds := ([] : List (String × List String))
                  activeSubagentToolNames :=
                    ([] : List (String × List (String × String)))
                  isWaiting := false
                  permissionSent := false }).map (fun pr =>
                ⟨pr.2.id, pr.2.sessionId, pr.2.jsonlFile, pr.2.projectDir⟩)
            msgs := w.msgs ++ [Srv.Msg.toolsClear agentId] } := by
  simp only [Srv.reassignAgentToFile, hagent, Srv.cancelWaitingTimer,
    Srv.cancelPermissionTimer, Srv.clearAgentActivity, Srv.persistAgents,
    Srv.startFileWatching]

theorem mapSet_lookup_self {α β : Type} [DecidableEq α] {l : List (α × β)}
    {k : α} {v : β} (h : mapLookup l k = some v) : mapSet l k v = l := by
  induction l with
  | nil => simp [mapLookup] at h
  | cons p rest ih =>
    rw [mapLookup_cons] at h
    by_cases hp : p.1 = k
    · rw [if_pos hp] at h
      have hv : p.2 = v := by simpa using h
      rw [mapSet, if_pos hp, ← hp, ← hv]
    · rw [if_neg hp] at h
      rw [mapSet, if_neg hp, ih h]

theorem filter_ne_of_not_contains {α : Type} [DecidableEq α] {l : List α}
    {k : α} (h : l.contains k = false) :
    l.filter (fun i => i ≠ k) = l := by
  rw [List.filter_eq_self]
  intro a ha
  simp only [decide_eq_true_eq]
  intro he
  subst he
  rw [List.contains_eq_any_beq, List.any_eq_false] at h
  exact absurd (by simp) (h a ha)

theorem filter_bne_of_not_contains {α : Type} [DecidableEq α] {l : List α}
    {k : α} (h : l.contains k = false) :
    l.filter (fun i => !decide (i = k)) = l := by
  have := filter_ne_of_not_contains h
  simpa using this

theorem readNewLinesW_noop
    (process : Nat → Srv.TailerCtx → List Char → Srv.TailerCtx × List Srv.Msg)
    (agentId : Nat) (fsys : Srv.FileSys) (w : Srv.World)
    (a : Srv.AgentState) (ha : mapLookup w.agents agentId = some a)
    (hsz : ∀ info, Srv.statFile fsys a.jsonlFile = some info →
      info.content.length ≤ a.fileOffset) :
    Srv.readNewLinesW process agentId fsys w = w := by
  simp only [Srv.readNewLinesW, ha]
  cases hstat : Srv.statFile fsys a.jsonlFile with
  | none => rfl
  | some info =>
    dsimp only
    rw [srv_readNewLines_of_no_growth process agentId
      ⟨a, w.waitingTimers.contains agentId, w.permissionTimers.contains agentId⟩
      info.content (hsz info hstat)]
    rw [mapSet_lookup_self ha]
    cases hw : w.waitingTimers.contains agentId with
    | false =>
      cases hp : w.permissionTimers.contains agentId with
      | false =>
        simp [hw, hp, filter_bne_of_not_contains hw,
          filter_bne_of_not_contains hp]
      | true => simp [hw, hp, filter_bne_of_not_contains hw]
    | true =>
      cases hp : w.permissionTimers.contains agentId with
      | false => simp [hw, hp, filter_bne_of_not_contains hp]
      | true => simp [hw, hp]

/-- C2, amended: the reassignment routine reassignAgentToFile, when invoked
on a tracked session and a fresh (empty or not-yet-created) log file,
detaches the old watch and backup poll, swaps the session to the new path at
offset 0 with an empty partial-line buffer, clears all in-flight activity
and the waiting/permission flags and timers, and creates no duplicate
session.  The scanner, however, does not invoke it: a previously-unseen
recently-modified file makes scanForNewJsonlFiles create a brand-new session
under a fresh id, leaving every existing session untouched. -/
theorem reassign_resets_session_but_scanner_creates_new_session
    (process : Nat → Srv.TailerCtx → List Char → Srv.TailerCtx × List Srv.Msg)
    (agentId : Nat) (newPath : String) (fsys : Srv.FileSys) (w : Srv.World)
    (a : Srv.AgentState) (hagent : mapLookup w.agents agentId = some a)
    (hempty : ∀ info, Srv.statFile fsys newPath = some info →
      info.content = []) :
    ((∃ a2, mapLookup
          (Srv.reassignAgentToFile process agentId newPath fsys w).agents
          agentId = some a2 ∧
        a2.jsonlFile = newPath ∧ a2.fileOffset = 0 ∧ a2.lineBuffer = [] ∧
        a2.activeToolIds = [] ∧ a2.activeToolStatuses = [] ∧
        a2.isWaiting = false ∧ a2.permissionSent = false) ∧
      mapLookup
          (Srv.reassignAgentToFile process agentId newPath fsys w).fileWatchers
          agentId = some newPath ∧
      (Srv.reassignAgentToFile process agentId newPath fsys
          w).waitingTimers.contains agentId = false ∧
      (Srv.reassignAgentToFile process agentId newPath fsys
          w).permissionTimers.contains agentId = false ∧
      (Srv.reassignAgentToFile process agentId newPath fsys
          w).agents.map Prod.fst = w.agents.map Prod.fst) ∧
    (∀ (projectDir file : String) (w2 : Srv.World) (info : Srv.FileInfo),
        w2.knownJsonlFiles.contains file = false →
        Srv.statFile fsys file = some info →
        w2.now - info.mtime ≤ Srv.ACTIVE_THRESHOLD_MS →
        mapLookup w2.agents w2.nextAgentId = none →
        (Srv.scanStep projectDir fsys w2 file).agents.map Prod.fst
            = w2.agents.map Prod.fst ++ [w2.nextAgentId] ∧
        (∀ id2, id2 ≠ w2.nextAgentId →
          mapLookup (Srv.scanStep projectDir fsys w2 file).agents id2
            = mapLookup w2.agents id2)) := by
  constructor
  · set a2 : Srv.AgentState :=
      { a with
          jsonlFile := newPath
          fileOffset := 0
          lineBuffer := ([] : List Char)
          activeToolIds := ([] : List String)
          activeToolStatuses := ([] : List (String × String))
          activeToolNames := ([] : List (String × String))
          activeSubagentToolIds := ([] : List (String × List String))
          activeSubagentToolNames :=
            ([] : List (String × List (String × String)))
          isWaiting := false
          permissionSent := false } with ha2
    rw [reassign_unfold process agentId newPath fsys w a hagent]
    rw [readNewLinesW_noop process agentId fsys _ a2
      (by rw [← ha2]; exact mapLookup_mapSet_self _ _ _)
      (by
        intro info hinfo
        have : info.content = [] := hempty info hinfo
        simp [this])]
    refine ⟨⟨a2, ?_, rfl, rfl, rfl, rfl, rfl, rfl, rfl⟩, ?_, ?_, ?_, ?_⟩
    · rw [← ha2]
      exact mapLookup_mapSet_self _ _ _
    · exact mapLookup_mapSet_self _ _ _
    · exact contains_filter_ne _ _
    · exact contains_filter_ne _ _
    · rw [← ha2]
      exact mapSet_keys_of_found w.agents agentId a2 (by rw [hagent]; simp)
  · intro projectDir file w2 info hknown hstat hfresh hnofid
    have hk : ¬ (w2.knownJsonlFiles.contains file = true) := by
      rw [hknown]; simp
    have hth : ¬ (Srv.ACTIVE_THRESHOLD_MS < w2.now - info.mtime) :=
      not_lt.mpr hfresh
    have hagents : (Srv.scanStep projectDir fsys w2 file).agents
        = mapSet w2.agents w2.nextAgentId
          ⟨w2.nextAgentId, false, Srv.basenameNoExt file ".jsonl", projectDir,
            file, info.content.length, [], [], [], [], [], [], false, false,
            false⟩ := by
      simp only [Srv.scanStep, if_neg hk, hstat, if_neg hth,
        Srv.persistAgents, Srv.startFileWatching]
    constructor
    · rw [hagents, mapSet_of_absent _ _ _ hnofid]
      simp
    · intro id2 hid2
      rw [hagents]
      exact mapLookup_mapSet_ne _ _ _ _ hid2

theorem reassign_resets_session_but_scanner_creates_new_session_witness :
    (Srv.reassignAgentToFile (fun _ c _ => (c, [])) 1 "dir/s2.jsonl" []
        ⟨1000000,
          [(1, ⟨1, false, "s1", "dir", "dir/s1.jsonl", 5, [], ["t1"],
            [("t1", "x")], [("t1", "Read")], [], [], false, true, true⟩)],
          ["dir/s1.jsonl"], [(1, "dir/s1.jsonl")], [1], [1], [1], [], 2,
          some 1, true, [⟨1, "s1", "dir/s1.jsonl", "dir"⟩],
          []⟩).waitingTimers.contains 1 = false ∧
    (Srv.reassignAgentToFile (fun _ c _ => (c, [])) 1 "dir/s2.jsonl" []
        ⟨1000000,
          [(1, ⟨1, false, "s1", "dir", "dir/s1.jsonl", 5, [], ["t1"],
            [("t1", "x")], [("t1", "Read")], [], [], false, true, true⟩)],
          ["dir/s1.jsonl"], [(1, "dir/s1.jsonl")], [1], [1], [1], [], 2,
          some 1, true, [⟨1, "s1", "dir/s1.jsonl", "dir"⟩],
          []⟩).agents.map Prod.fst = [1] := by
  have h := reassign_resets_session_but_scanner_creates_new_session
    (fun _ c _ => (c, [])) 1 "dir/s2.jsonl" []
    ⟨1000000,
      [(1, ⟨1, false, "s1", "dir", "dir/s1.jsonl", 5, [], ["t1"],
        [("t1", "x")], [("t1", "Read")], [], [], false, true, true⟩)],
      ["dir/s1.jsonl"], [(1, "dir/s1.jsonl")], [1], [1], [1], [], 2,
      some 1, true, [⟨1, "s1", "dir/s1.jsonl", "dir"⟩], []⟩
    ⟨1, false, "s1", "dir", "dir/s1.jsonl", 5, [], ["t1"], [("t1", "x")],
      [("t1", "Read")], [], [], false, true, true⟩
    (by rfl)
    (fun info hinfo => by simp [Srv.statFile, mapLookup] at hinfo)
  exact ⟨h.1.2.2.1, h.1.2.2.2.2.trans (by rfl)⟩

theorem mapLookup_append {α β : Type} [DecidableEq α] (l1 l2 : List (α × β))
    (k : α) :
    mapLookup (l1 ++ l2) k
      = (mapLookup l1 k).orElse (fun _ => mapLookup l2 k) := by
  induction l1 with
  | nil => simp [mapLookup]
  | cons p rest ih =>
    rw [List.cons_append, mapLookup_cons, mapLookup_cons]
    by_cases hp : p.1 = k <;> simp [hp, ih]

theorem restore_fold (fsys : Srv.FileSys) (ps : List Srv.PersistedAgent) :
    ∀ (w : Srv.World) (m : Nat) (d : Option String),
      (∀ p ∈ ps, mapLookup w.agents p.id = none) →
      (ps.map (fun p => p.id)).Nodup →
      (ps.foldl (Srv.restoreStep fsys) (w, m, d)).1.agents
          = w.agents ++ (ps.filter (Srv.keepEntry fsys w.now)).map
            (fun p => (p.id,
              Srv.restoredAgent p (Srv.fileSize fsys p.jsonlFile))) ∧
      (ps.foldl (Srv.restoreStep fsys) (w, m, d)).1.now = w.now ∧
      (ps.foldl (Srv.restoreStep fsys) (w, m, d)).1.store = w.store := by
  induction ps with
  | nil =>
    intro w m d _ _
    exact ⟨by simp, rfl, rfl⟩
  | cons p ps ih =>
    intro w m d hfresh hnodup
    have hfp : mapLookup w.agents p.id = none :=
      hfresh p (List.mem_cons_self _ _)
    have hnd2 : (ps.map (fun p => p.id)).Nodup := by
      simpa using hnodup.of_cons
    have hpid : p.id ∉ ps.map (fun p => p.id) := by
      have := hnodup
      rw [List.map_cons, List.nodup_cons] at this
      exact this.1
    simp only [List.foldl_cons]
    cases hstat : Srv.statFile fsys p.jsonlFile with
    | none =>
      have hstep : Srv.restoreStep fsys (w, m, d) p = (w, m, d) := by
        simp [Srv.restoreStep, hstat]
      have hkeep : Srv.keepEntry fsys w.now p = false := by
        simp [Srv.keepEntry, hstat]
      rw [hstep]
      obtain ⟨h1, h2, h3⟩ := ih w m d
        (fun q hq => hfresh q (List.mem_cons_of_mem _ hq)) hnd2
      refine ⟨?_, h2, h3⟩
      rw [h1, List.filter_cons, hkeep]
      simp
    | some info =>
      by_cases hstale : Srv.ONE_HOUR_MS < w.now - info.mtime
      · have hstep : Srv.restoreStep fsys (w, m, d) p = (w, m, d) := by
          simp [Srv.restoreStep, hstat, hstale]
        have hkeep : Srv.keepEntry fsys w.now p = false := by
          simp [Srv.keepEntry, hstat, hstale]
        rw [hstep]
        obtain ⟨h1, h2, h3⟩ := ih w m d
          (fun q hq => hfresh q (List.mem_cons_of_mem _ hq)) hnd2
        refine ⟨?_, h2, h3⟩
        rw [h1, List.filter_cons, hkeep]
        simp
      · have hkeep : Srv.keepEntry fsys w.now p = true := by
          simp [Srv.keepEntry, hstat, hstale]
        have hsize : Srv.fileSize fsys p.jsonlFile = info.content.length := by
          simp [Srv.fileSize, hstat]
        have hstep : Srv.restoreStep fsys (w, m, d) p =
            (Srv.startFileWatching p.id p.jsonlFile
              { w with
                  agents := mapSet w.agents p.id
                    (Srv.restoredAgent p info.content.length)
                  knownJsonlFiles := setAdd w.knownJsonlFiles p.jsonlFile },
              if m < p.id then p.id else m, some p.projectDir) := by
          simp [Srv.restoreStep, hstat, hstale, Srv.restoredAgent]
        rw [hstep]
        set w2 : Srv.World := Srv.startFileWatching p.id p.jsonlFile
          { w with
              agents := mapSet w.agents p.id
                (Srv.restoredAgent p info.content.length)
              knownJsonlFiles := setAdd w.knownJsonlFiles p.jsonlFile }
          with hw2
        have hw2agents : w2.agents
            = w.agents ++ [(p.id, Srv.restoredAgent p info.content.length)] := by
          rw [hw2]
          simp only [Srv.startFileWatching]
          exact mapSet_of_absent _ _ _ hfp
        have hw2now : w2.now = w.now := rfl
        have hw2store : w2.store = w.store := rfl
        obtain ⟨h1, h2, h3⟩ := ih w2 (if m < p.id then p.id else m)
          (some p.projectDir)
          (fun q hq => by
            have hqne : q.id ≠ p.id := by
              intro he
              exact hpid (he ▸ List.mem_map_of_mem (fun p => p.id) hq)
            rw [hw2agents, mapLookup_append]
            rw [hfresh q (List.mem_cons_of_mem _ hq)]
            show mapLookup
              [(p.id, Srv.restoredAgent p info.content.length)] q.id = none
            rw [mapLookup_cons, if_neg (fun hh => hqne hh.symm)]
            rfl)
          hnd2
        refine ⟨?_, by rw [h2, hw2now], by rw [h3, hw2store]⟩
        rw [h1, hw2agents, hw2now, List.filter_cons, hkeep]
        simp [hsize]

theorem ensureProjectScan_agents_store (listing : List String)
    (w : Srv.World) :
    (Srv.ensureProjectScan listing w).agents = w.agents ∧
    (Srv.ensureProjectScan listing w).store = w.store := by
  unfold Srv.ensureProjectScan
  split_ifs <;> exact ⟨rfl, rfl⟩

/-- C3: persisting a snapshot of any tracked-session map and then restoring
it into a fresh process reproduces exactly the persisted entries whose
backing file still exists with a modification time inside the staleness
window, each as an equivalent session (same id, correlation key, log path
and directory) whose read offset sits at the file current end; entries
failing either check are dropped without error, and the pruned set is what
gets re-persisted. -/
theorem snapshot_restore_round_trip
    (w0 : Srv.World) (now : Nat) (fsys : Srv.FileSys)
    (dirListing : String → List String)
    (hid : ∀ pr ∈ w0.agents, (pr : Nat × Srv.AgentState).2.id = pr.1)
    (hnodup : (w0.agents.map Prod.fst).Nodup) :
    (Srv.restoreAgents fsys dirListing
        (Srv.freshWorld now (Srv.persistAgents w0).store)).agents
      = ((Srv.persistAgents w0).store.filter (Srv.keepEntry fsys now)).map
          (fun p => (p.id,
            Srv.restoredAgent p (Srv.fileSize fsys p.jsonlFile))) ∧
    (Srv.restoreAgents fsys dirListing
        (Srv.freshWorld now (Srv.persistAgents w0).store)).store
      = (Srv.persistAgents w0).store.filter (Srv.keepEntry fsys now) := by
  set store := (Srv.persistAgents w0).store with hstoredef
  have hstore2 : store = w0.agents.map (fun pr =>
      (⟨pr.2.id, pr.2.sessionId, pr.2.jsonlFile, pr.2.projectDir⟩ :
        Srv.PersistedAgent)) := rfl
  by_cases hem : store.length = 0
  · have hnil : store = [] := List.length_eq_zero.mp hem
    have hres : Srv.restoreAgents fsys dirListing (Srv.freshWorld now store)
        = Srv.freshWorld now store := by
      simp [Srv.restoreAgents, Srv.freshWorld, hem]
    rw [hres, hnil]
    exact ⟨rfl, rfl⟩
  · have hids : (store.map (fun p => p.id)).Nodup := by
      rw [hstore2, List.map_map]
      have hcg : w0.agents.map
          ((fun p : Srv.PersistedAgent => p.id) ∘ (fun pr =>
            (⟨pr.2.id, pr.2.sessionId, pr.2.jsonlFile, pr.2.projectDir⟩ :
              Srv.PersistedAgent)))
          = w0.agents.map Prod.fst := by
        apply List.map_congr_left
        intro pr hpr
        exact hid pr hpr
      rw [hcg]
      exact hnodup
    obtain ⟨h1, h2, h3⟩ := restore_fold fsys store
      (Srv.freshWorld now store) 0 none (fun p _ => rfl) hids
    have hguard : ¬ ((Srv.freshWorld now store).store.length = 0) := hem
    set A := store.foldl (Srv.restoreStep fsys)
      (Srv.freshWorld now store, 0, none) with hA
    have hAagents : A.1.agents
        = (store.filter (Srv.keepEntry fsys now)).map
          (fun p => (p.id,
            Srv.restoredAgent p (Srv.fileSize fsys p.jsonlFile))) := by
      rw [hA]
      have hfw : (Srv.freshWorld now store).agents = [] := rfl
      have hfn : (Srv.freshWorld now store).now = now := rfl
      rw [hfn] at h1
      rw [h1, hfw]
      simp
    have hmain : (Srv.restoreAgents fsys dirListing
          (Srv.freshWorld now store)).agents = A.1.agents ∧
        (Srv.restoreAgents fsys dirListing
          (Srv.freshWorld now store)).store
          = A.1.agents.map (fun pr =>
            (⟨pr.2.id, pr.2.sessionId, pr.2.jsonlFile, pr.2.projectDir⟩ :
              Srv.PersistedAgent)) := by
      simp only [Srv.restoreAgents, if_neg hguard]
      have hfs : (Srv.freshWorld now store).store = store := rfl
      rw [hfs, ← hA]
      cases hd : A.2.2 with
      | none => exact ⟨rfl, rfl⟩
      | some dir =>
        refine ⟨?_, ?_⟩
        · exact (ensureProjectScan_agents_store (dirListing dir) _).1
        · exact (ensureProjectScan_agents_store (dirListing dir) _).2
    refine ⟨hmain.1.trans hAagents, ?_⟩
    rw [hmain.2, hAagents, List.map_map]
    have : ((fun pr : Nat × Srv.AgentState =>
        (⟨pr.2.id, pr.2.sessionId, pr.2.jsonlFile, pr.2.projectDir⟩ :
          Srv.PersistedAgent)) ∘ (fun p : Srv.PersistedAgent =>
        (p.id, Srv.restoredAgent p (Srv.fileSize fsys p.jsonlFile))))
        = fun p => p := by
      funext p
      rfl
    rw [this]
    simp

theorem snapshot_restore_round_trip_witness :
    (Srv.restoreAgents [("f1", ⟨500, ['x']⟩)] (fun _ => [])
        (Srv.freshWorld 500 (Srv.persistAgents
          ⟨500,
            [(1, ⟨1, true, "s1", "d", "f1", 0, [], [], [], [], [], [],
              false, false, false⟩),
             (2, ⟨2, true, "s2", "d", "f2", 0, [], [], [], [], [], [],
              false, false, false⟩)],
            [], [], [], [], [], [], 3, none, false, [], []⟩).store)).agents
      = [(1, ⟨1, false, "s1", "d", "f1", 1, [], [], [], [], [], [],
          false, false, false⟩)] ∧
    (Srv.restoreAgents [("f1", ⟨500, ['x']⟩)] (fun _ => [])
        (Srv.freshWorld 500 (Srv.persistAgents
          ⟨500,
            [(1, ⟨1, true, "s1", "d", "f1", 0, [], [], [], [], [], [],
              false, false, false⟩),
             (2, ⟨2, true, "s2", "d", "f2", 0, [], [], [], [], [], [],
              false, false, false⟩)],
            [], [], [], [], [], [], 3, none, false, [], []⟩).store)).store
      = [⟨1, "s1", "f1", "d"⟩] := by
  have h := snapshot_restore_round_trip
    ⟨500,
      [(1, ⟨1, true, "s1", "d", "f1", 0, [], [], [], [], [], [],
        false, false, false⟩),
       (2, ⟨2, true, "s2", "d", "f2", 0, [], [], [], [], [], [],
        false, false, false⟩)],
      [], [], [], [], [], [], 3, none, false, [], []⟩
    500 [("f1", ⟨500, ['x']⟩)] (fun _ => [])
    (by decide) (by decide)
  exact ⟨h.1.trans (by decide), h.2.trans (by decide)⟩
